import Mathlib

/-!
Verification of the race-result aggregation logic of the team site builder
(src/team-builder.py and src/site_builder1.py).

Python strings are modelled as Lean `String` (a wrapper around `List Char`,
matching the code-point sequence semantics of Python `str`).  All string
operations used by the program (strip, split, replace, startswith, int(),
float(), str.isdigit) are embedded as explicit list recursions below, so
that theorems can be proved by ordinary induction.  Times are modelled as
rationals (Python floats on these inputs are decimal values; comparisons
and the arithmetic `m*60+s` are exact).  Raised Python exceptions are
modelled by `Except Unit`; the `None` sentinel of the time parser is the
inner `Option`.
-/

namespace TeamBuilder

instance {ε α : Type} [DecidableEq ε] [DecidableEq α] : DecidableEq (Except ε α) :=
  fun a b =>
    match a, b with
    | .error e, .error f =>
      decidable_of_iff (e = f) ⟨fun h => by rw [h], fun h => by injection h⟩
    | .ok x, .ok y =>
      decidable_of_iff (x = y) ⟨fun h => by rw [h], fun h => by injection h⟩
    | .error _, .ok _ => isFalse (fun h => by injection h)
    | .ok _, .error _ => isFalse (fun h => by injection h)

/-! ## Character-list primitives (models of Python str operations) -/

/-- Whitespace characters stripped by Python `str.strip()`. -/
def isSpace (c : Char) : Bool :=
  c = ' ' ∨ c = '\t' ∨ c = '\n' ∨ c = '\r' ∨ c = '\x0b' ∨ c = '\x0c'

/-- Drop leading whitespace. -/
def trimL : List Char → List Char
  | [] => []
  | c :: cs => if isSpace c then trimL cs else c :: cs

/-- Drop trailing whitespace. -/
def trimR (cs : List Char) : List Char :=
  (trimL cs.reverse).reverse

/-- Model of Python `str.strip()`. -/
def pyStrip (s : String) : String :=
  ⟨trimR (trimL s.data)⟩

/-- Split a character list on every occurrence of `sep`
(model of Python `str.split(sep)` for a one-character separator). -/
def splitChar (sep : Char) : List Char → List (List Char)
  | [] => [[]]
  | c :: cs =>
    if c = sep then [] :: splitChar sep cs
    else
      match splitChar sep cs with
      | [] => [[c]]
      | p :: ps => (c :: p) :: ps

/-- Model of Python `str.replace("PR", "")`: delete every (left-to-right,
non-overlapping) occurrence of the two-character substring `PR`. -/
def replacePR : List Char → List Char
  | [] => []
  | [c] => [c]
  | c :: d :: cs =>
    if c = 'P' ∧ d = 'R' then replacePR cs
    else c :: replacePR (d :: cs)

/-- Model of Python `str.startswith(pre)`. -/
def pyStartsWith (pre s : String) : Bool :=
  List.isPrefixOf pre.data s.data

/-- Numeric value of a digit list (most significant first). -/
def digitsToNat (cs : List Char) : Nat :=
  cs.foldl (fun a c => a * 10 + (c.toNat - 48)) 0

/-! Exact rational arithmetic.  The four operations below are the
ordinary rational-number operations, proved equal to `+`, `*`, `/` and
the casts by the bridge lemmas `qAdd_eq` .. `qOfNat_eq` further down;
they are spelled with `mkRat`/`Rat.divInt` so that concrete runs of the
embedded program reduce inside the kernel (`decide`). -/

def intToQ (n : Int) : ℚ := Rat.divInt n 1

def qOfNat (n : Nat) : ℚ := mkRat n 1

def qAdd (a b : ℚ) : ℚ := mkRat (a.num * b.den + b.num * a.den) (a.den * b.den)

def qMul (a b : ℚ) : ℚ := mkRat (a.num * b.num) (a.den * b.den)

def qDiv (a b : ℚ) : ℚ := Rat.divInt (a.num * b.den) (a.den * b.num)

/-- Model of Python `str.isdigit()` (restricted to ASCII digits,
the only digits occurring in the data). -/
def pyIsDigit (s : String) : Bool :=
  s.data ≠ [] && s.data.all Char.isDigit

/-- One or more ASCII digits, as a natural number. -/
def natDigits (ds : List Char) : Option Nat :=
  if ds ≠ [] ∧ ds.all Char.isDigit then some (digitsToNat ds) else none

/-- Model of Python `int(str)`: optional surrounding whitespace, optional
sign, then one or more digits (ASCII; underscore separators are not
modelled).  Returns `none` where Python raises `ValueError`. -/
def pyInt (s : String) : Option Int :=
  let cs := trimR (trimL s.data)
  if cs.head? = some '+' then (natDigits cs.tail).map Int.ofNat
  else if cs.head? = some '-' then (natDigits cs.tail).map (fun n => -(n : Int))
  else (natDigits cs).map Int.ofNat

/-- Model of Python `float(str)` restricted to plain decimal literals
(optional sign, digits, optional single dot; exponent, inf and nan forms
are not modelled — they never occur in race times).  Returns `none` where
Python raises `ValueError`. -/
def pyFloatBody (sign : Int) (ds : List Char) : Option ℚ :=
  match splitChar '.' ds with
  | [ip] =>
    if ip ≠ [] ∧ ip.all Char.isDigit then
      some (qMul (intToQ sign) (qOfNat (digitsToNat ip)))
    else none
  | [ip, fp] =>
    if (ip ≠ [] ∨ fp ≠ []) ∧ ip.all Char.isDigit ∧ fp.all Char.isDigit then
      some (qMul (intToQ sign)
        (qAdd (qOfNat (digitsToNat ip))
          (qDiv (qOfNat (digitsToNat fp)) (qOfNat (10 ^ fp.length)))))
    else none
  | _ => none

def pyFloat (s : String) : Option ℚ :=
  let cs := trimR (trimL s.data)
  if cs.head? = some '+' then pyFloatBody 1 cs.tail
  else if cs.head? = some '-' then pyFloatBody (-1) cs.tail
  else pyFloatBody 1 cs

/-! ## The field parsers of the program -/

/-- `time_to_seconds(t)` from team-builder.py lines 54-59 (identical in
site_builder1.py lines 146-151).  `.ok none` models the Python `None`
sentinel (no colon in the string); `.error ()` models a raised
`ValueError` (more than one colon after `PR`-stripping, or minutes or
seconds failing `int()`/`float()`). -/
def time_to_seconds (t : String) : Except Unit (Option ℚ) :=
  if ':' ∈ t.data then
    let t2 := pyStrip ⟨replacePR t.data⟩
    match splitChar ':' t2.data with
    | [m, s] =>
      match pyInt ⟨m⟩, pyFloat ⟨s⟩ with
      | some mi, some sv => .ok (some (qAdd (qMul (intToQ mi) (qOfNat 60)) sv))
      | _, _ => .error ()
    | _ => .error ()
  else
    .ok none

/-- Three-letter month abbreviations accepted by `strptime` directive
`%b` (case-insensitive, C locale). -/
def monthNum (s : String) : Option Nat :=
  match String.mk (s.data.map Char.toLower) with
  | "jan" => some 1 | "feb" => some 2 | "mar" => some 3 | "apr" => some 4
  | "may" => some 5 | "jun" => some 6 | "jul" => some 7 | "aug" => some 8
  | "sep" => some 9 | "oct" => some 10 | "nov" => some 11 | "dec" => some 12
  | _ => none

def isLeap (y : Nat) : Bool :=
  (y % 4 == 0 && y % 100 != 0) || y % 400 == 0

def daysInMonth (y m : Nat) : Nat :=
  if m = 2 then (if isLeap y then 29 else 28)
  else if m = 4 ∨ m = 6 ∨ m = 9 ∨ m = 11 then 30
  else 31

/-- A run of 1 to `maxLen` ASCII digits, as matched by the `strptime`
directives `%d` and `%Y`. -/
def parseNatDigits (s : String) (maxLen : Nat) : Option Nat :=
  if s.data ≠ [] ∧ s.data.length ≤ maxLen ∧ s.data.all Char.isDigit then
    some (digitsToNat s.data)
  else none

/-- `parse_date(d)` from team-builder.py lines 47-51: strptime with format
string of month abbreviation, day and four-digit year separated by single
spaces, `None` on failure.  A parsed date is encoded as the natural number
`y*10000 + m*100 + d`, whose order agrees with `datetime` comparison
(parsed dates always carry midnight time). -/
def parse_date (d : String) : Option Nat :=
  match (splitChar ' ' d.data).map String.mk with
  | [mo, da, yr] =>
    match monthNum mo, parseNatDigits da 2, parseNatDigits yr 4 with
    | some m, some day, some y =>
      if 1 ≤ y ∧ 1 ≤ day ∧ day ≤ daysInMonth y m then
        some (y * 10000 + m * 100 + day)
      else none
    | _, _, _ => none
  | _ => none

/-- `is_valid_grade(g)` from team-builder.py lines 62-67: `int(g)` must
succeed and land in the closed interval 7..12. -/
def is_valid_grade (g : String) : Bool :=
  match pyInt g with
  | some n => 7 ≤ n && n ≤ 12
  | none => false

/-- The value `str(int(g))` computed by `build_summary` for a grade that
passed `is_valid_grade` (the `none` branch is unreachable under validity). -/
def gradeNormalized (g : String) : String :=
  match pyInt g with
  | some n => toString n
  | none => g

/-! ## Records and field access -/

/-- A CSV record: mapping of field name to raw string value.  Keys are
unique in records produced by the CSV reader. -/
abbrev Record := List (String × String)

/-- First-match association lookup (model of Python `dict` access for the
unique-key dictionaries the program builds). -/
def dictGet {β : Type} (m : List (String × β)) (k : String) : Option β :=
  (m.find? (fun p => p.1 = k)).map (·.2)

/-- `safe(row, key, default)` from team-builder.py lines 42-44: the
trimmed value when present and non-blank, else the default. -/
def safe (r : Record) (k : String) (default : String) : String :=
  let val := pyStrip ((dictGet r k).getD "")
  if val = "" then default else val

/-- `safe` at its default argument. -/
def safeNA (r : Record) (k : String) : String :=
  safe r k "N/A"

/-! ## Stable sorting (model of Python `list.sort` / `sorted`)

Python `list.sort` and `sorted` are stable sorts; a stable sort is
extensionally determined by its comparison, so it is embedded as a stable
insertion sort.  `le x y = true` means `x` is allowed to precede `y`;
on ties the earlier input element stays first. -/

def insertStable {α : Type} (le : α → α → Bool) (x : α) : List α → List α
  | [] => [x]
  | y :: ys => if le x y then x :: y :: ys else y :: insertStable le x ys

def sortStable {α : Type} (le : α → α → Bool) (l : List α) : List α :=
  l.foldr (insertStable le) []

/-! ## The athlete summary (`build_summary`, team-builder.py lines 182-221;
the copy in site_builder1.py lines 201-242 is the same function: `safe`
already strips, so its extra `.strip()` on `pr_str`/`sr_str` is the
identity). -/

/-- The descending-by-date comparison used for `dated_rows.sort(key=...,
reverse=True)`: `x` may precede `y` when its date key is at least `y`'s. -/
def dateDescLe (x y : Nat × Record) : Bool :=
  decide (y.1 ≤ x.1)

/-- The first loop of `build_summary`: collect `(date, record)` pairs for
records with a parseable date, and fold the personal-record minimum over
parseable times.  A raised `ValueError` inside `time_to_seconds`
propagates (`.error`). -/
def loop1 : List Record → List (Nat × Record) → Option ℚ → String →
    Except Unit (List (Nat × Record) × Option ℚ × String)
  | [], dated, prS, prStr => .ok (dated, prS, prStr)
  | r :: rs, dated, prS, prStr =>
    let dated' := match parse_date (safeNA r "Date") with
      | some d => dated ++ [(d, r)]
      | none => dated
    match time_to_seconds (safeNA r "Time") with
    | .error e => .error e
    | .ok secs =>
      match secs with
      | some q =>
        match prS with
        | none => loop1 rs dated' (some q) (safeNA r "Time")
        | some c =>
          if q < c then loop1 rs dated' (some q) (safeNA r "Time")
          else loop1 rs dated' prS prStr
      | none => loop1 rs dated' prS prStr

/-- The season-record loop of `build_summary`: fold the minimum parseable
time over records whose validated grade, normalized as `str(int(g))`,
equals the current grade. -/
def srLoop : List Record → String → Option ℚ → String →
    Except Unit (Option ℚ × String)
  | [], _, srS, srStr => .ok (srS, srStr)
  | r :: rs, cg, srS, srStr =>
    let g := safeNA r "Grade"
    if is_valid_grade g = false then srLoop rs cg srS srStr
    else if gradeNormalized g ≠ cg then srLoop rs cg srS srStr
    else
      match time_to_seconds (safeNA r "Time") with
      | .error e => .error e
      | .ok secs =>
        match secs with
        | some q =>
          match srS with
          | none => srLoop rs cg (some q) (safeNA r "Time")
          | some c =>
            if q < c then srLoop rs cg (some q) (safeNA r "Time")
            else srLoop rs cg srS srStr
        | none => srLoop rs cg srS srStr

/-- Whether a dated row's record carries a valid grade (the scan condition
of the current-grade loop). -/
def validGradeRow (dr : Nat × Record) : Bool :=
  is_valid_grade (safeNA dr.2 "Grade")

/-- `build_summary(records)`: returns `(pr_str, sr_str, current_grade)`,
or `.error ()` when a `Time` field raises inside `time_to_seconds`. -/
def build_summary (records : List Record) : Except Unit (String × String × String) :=
  match loop1 records [] none "N/A" with
  | .error e => .error e
  | .ok (dated, _, prStr) =>
    let sorted := sortStable dateDescLe dated
    let current_grade :=
      match sorted.find? validGradeRow with
      | some dr => gradeNormalized (safeNA dr.2 "Grade")
      | none => "N/A"
    if current_grade = "N/A" then .ok (prStr, "N/A", current_grade)
    else
      match srLoop records current_grade none "N/A" with
      | .error e => .error e
      | .ok (_, srStr) => .ok (prStr, srStr, current_grade)

/-! ## Spec-side characterizations for the summary -/

/-- The parsed time of a record's `Time` field, `none` when the parser
returns its sentinel or raises. -/
def timeOf (r : Record) : Option ℚ :=
  match time_to_seconds (safeNA r "Time") with
  | .ok o => o
  | .error _ => none

/-- All parseable times of a record list, in order. -/
def allTimes (rs : List Record) : List ℚ :=
  rs.filterMap timeOf

/-- The `(date, record)` pairs of the records with parseable dates, in
input order (what the first loop accumulates). -/
def datedOf (rs : List Record) : List (Nat × Record) :=
  rs.filterMap (fun r => (parse_date (safeNA r "Date")).map (fun d => (d, r)))

/-- Whether a record participates in the season-record fold for current
grade `cg`. -/
def gradeMatches (cg : String) (r : Record) : Bool :=
  is_valid_grade (safeNA r "Grade") && gradeNormalized (safeNA r "Grade") == cg

/-- Parseable times of the records in the current grade. -/
def seasonTimes (rs : List Record) (cg : String) : List ℚ :=
  allTimes (rs.filter (gradeMatches cg))

/-- Spec-side pick of the current-grade record, straight from the words of
the specification: among records with a parseable date and a valid grade,
the one with the maximal date, the earliest such record on date ties. -/
def pickStep (acc : Option (Nat × Record)) (x : Nat × Record) :
    Option (Nat × Record) :=
  if validGradeRow x then
    match acc with
    | none => some x
    | some b => if b.1 < x.1 then some x else some b
  else acc

def pickBest (l : List (Nat × Record)) : Option (Nat × Record) :=
  l.foldl pickStep none

/-- The current grade as the specification describes it. -/
def gradeSpec (rs : List Record) : String :=
  match pickBest (datedOf rs) with
  | some dr => gradeNormalized (safeNA dr.2 "Grade")
  | none => "N/A"

/-! ## The per-athlete meets map (`build_athlete_stats`, team-builder.py
lines 94-99) -/

/-- Insertion-ordered dictionary write: `m[k] = v`.  An existing key keeps
its position and gets the new value; a new key is appended. -/
def dictSet {β : Type} (m : List (String × β)) (k : String) (v : β) :
    List (String × β) :=
  if m.any (fun p => p.1 = k) then
    m.map (fun p => if p.1 = k then (k, v) else p)
  else m ++ [(k, v)]

/-- One iteration of the meets loop of `build_athlete_stats`:
`meets[meet] = int(place)` for a non-sentinel meet name and a digit
place. -/
def meetsStep (meets : List (String × Int)) (r : Record) : List (String × Int) :=
  let meet := safeNA r "Meet Name"
  let place := safeNA r "Overall Place"
  if meet ≠ "N/A" ∧ pyIsDigit place then
    dictSet meets meet (digitsToNat place.data : Int)
  else meets

/-- The `meets` mapping of meet name to overall place built by
`build_athlete_stats`. -/
def athleteMeets (records : List Record) : List (String × Int) :=
  records.foldl meetsStep []

/-! ## Comparison builder (team-builder.py lines 16-29 and 112-180) -/

/-- The athlete summary dictionary assembled by `build_athlete_stats`
(its file-reading wrapper is I/O and out of scope; the fields are the
computed values the comparison builder consumes). -/
structure Stats where
  id : String
  name : String
  grade : String
  sr : String
  pr : String
  profile_pic : String
  meet_count : Nat
  meets : List (String × Int)
deriving Repr, DecidableEq

def DEFAULT_ID : String := "21615274"

/-- `choose_default_comparison(athletes)` from team-builder.py lines
16-29.  Note that the source fetches the same `DEFAULT_ID` into both `a`
and `b`.  (A stats dictionary stored in `athletes` is always a non-empty
dict, so Python truthiness of `a` and `b` is `isSome`.) -/
def choose_default_comparison (athletes : List (String × Stats)) :
    Option Stats × Option Stats :=
  let a := dictGet athletes DEFAULT_ID
  let b := dictGet athletes DEFAULT_ID
  if a.isSome && b.isSome then (a, b)
  else
    match athletes.map (·.2) with
    | v0 :: v1 :: _ => (some v0, some v1)
    | _ => (none, none)

/-- Lexicographic code-point order on strings, the order Python `sorted`
uses for `str` (Lean's `String` order is the same lexicographic order on
the character list). -/
def strLe (a b : String) : Bool :=
  decide (a ≤ b)

/-- The sorted list of shared meet names: `sorted(set(a["meets"]) &
set(b["meets"]))`. -/
def sharedMeetNames (a b : Stats) : List String :=
  sortStable strLe
    (((a.meets.map (·.1)).filter (fun m => b.meets.any (fun p => p.1 = m))).dedup)

/-- The data rows of the shared-meets table: for every shared meet name in
sorted order, the meet and both athletes' stored places
(`a['meets'][meet]`, `b['meets'][meet]`; the lookups always succeed for a
shared name). -/
def sharedRows (a b : Stats) : List (String × Option Int × Option Int) :=
  (sharedMeetNames a b).map
    (fun m => (m, dictGet a.meets m, dictGet b.meets m))

/-- Rendering of one shared-meet table row. -/
def sharedRowHtml (row : String × Option Int × Option Int) : String :=
  "<tr><td>" ++ row.1 ++ "</td><td>" ++
    (match row.2.1 with | some p => toString p | none => "") ++ "</td><td>" ++
    (match row.2.2 with | some p => toString p | none => "") ++ "</td></tr>"

/-- Join with a separator (model of Python `sep.join`). -/
def joinSep (sep : String) : List String → String
  | [] => ""
  | [x] => x
  | x :: xs => x ++ sep ++ joinSep sep xs

/-- `build_shared_meet_rows(a, b)` from team-builder.py lines 112-127
(the empty string when no meet is shared). -/
def build_shared_meet_rows (a b : Stats) : String :=
  if sharedMeetNames a b = [] then ""
  else joinSep "\n" ((sharedRows a b).map sharedRowHtml)

/-- The two comparison cards plus shared-meets section rendered when two
athletes were selected (team-builder.py lines 134-180; whitespace of the
original template is condensed, which no claim depends on). -/
def comparisonCards (a b : Stats) : String :=
  let sharedHtml :=
    if build_shared_meet_rows a b = "" then ""
    else
      "<div class=\"shared-meets\"><h3>Shared Meets</h3><table><thead><tr><th>Meet</th><th>"
        ++ a.name ++ " Place</th><th>" ++ b.name ++ " Place</th></tr></thead><tbody>"
        ++ build_shared_meet_rows a b ++ "</tbody></table></div>"
  "<div class=\"comparison-cards\"><div class=\"comparison-card\"><img src=\""
    ++ a.profile_pic ++ "\" alt=\"" ++ a.name ++ " profile picture\" /><h3>"
    ++ a.name ++ "</h3><p>Grade: " ++ a.grade ++ "</p><p>Season Record: "
    ++ a.sr ++ "</p><p>Personal Record: " ++ a.pr ++ "</p><p>Meets Competed: "
    ++ toString a.meet_count ++ "</p></div><div class=\"comparison-card\"><img src=\""
    ++ b.profile_pic ++ "\" alt=\"" ++ b.name ++ " profile picture\" /><h3>"
    ++ b.name ++ "</h3><p>Grade: " ++ b.grade ++ "</p><p>Season Record: "
    ++ b.sr ++ "</p><p>Personal Record: " ++ b.pr ++ "</p><p>Meets Competed: "
    ++ toString b.meet_count ++ "</p></div></div>" ++ sharedHtml

/-- `build_player_comparison_html(athletes)` from team-builder.py lines
129-180: the not-enough-athletes message exactly when
`choose_default_comparison` returned a missing side. -/
def build_player_comparison_html (athletes : List (String × Stats)) : String :=
  match choose_default_comparison athletes with
  | (some a, some b) => comparisonCards a b
  | _ => "<p>Not enough athletes to compare.</p>"

/-! ## CSV loading (`read_csv_after_header`, team-builder.py lines 70-78;
identical in site_builder1.py lines 134-143).  The file content arrives
already split into lines (`splitlines`); file-system I/O is out of
scope. -/

/-- Fields of one CSV line.  Models `csv` splitting restricted to
unquoted fields (no quoted field occurs in the claims; the lines carry no
newline characters after `splitlines`). -/
def csvFields (line : String) : List String :=
  (splitChar ',' line.data).map String.mk

/-- Model of `csv.DictReader(lines)`: keys from the first line, every
following non-blank line zipped against them (a short row simply lacks
the trailing keys; extra fields beyond the header are dropped, as they
are keyed by `None` in Python and never read). -/
def dictReader : List String → List Record
  | [] => []
  | header :: rest =>
    (rest.filter (fun l => l ≠ "")).map (fun l => (csvFields header).zip (csvFields l))

/-- The index of the first line starting with `Name,` (the generator
expression with `next(...)` scans the lines in order). -/
def findHeaderIdx : List String → Option Nat
  | [] => none
  | l :: ls =>
    if pyStartsWith "Name," l then some 0
    else (findHeaderIdx ls).map (· + 1)

/-- `read_csv_after_header`: find the first line starting with `Name,`
(the raised `StopIteration` when none exists is `.error ()`), then parse
from that line onward. -/
def read_csv_after_header (lines : List String) : Except Unit (List Record) :=
  match findHeaderIdx lines with
  | none => .error ()
  | some i => .ok (dictReader (lines.drop i))

/-! ## Team events (`build_team_events_rows`, team-builder.py lines
364-430) -/

/-- The per-meet accumulator entry of the events dictionary. -/
structure Event where
  date : Option Nat
  best_place : Option Int
  url : String
deriving Repr, DecidableEq

/-- The parseable date of a record (the events loop parses the `Date`
field). -/
def dateOf (r : Record) : Option Nat :=
  parse_date (safeNA r "Date")

/-- `place_val`: the overall place when it is a pure digit string. -/
def placeOf (r : Record) : Option Int :=
  let p := safeNA r "Overall Place"
  if pyIsDigit p then some (digitsToNat p.data : Int) else none

/-- The results URL with empty-string default: `safe(r, "Meet Results
URL", "")`. -/
def urlOf (r : Record) : String :=
  safe r "Meet Results URL" ""

/-- One iteration of the events loop: create the entry on first sight of
a meet, otherwise merge (earlier date, lower place, and the URL only when
the stored one is blank and the new one is not the literal sentinel). -/
def eventsStep (events : List (String × Event)) (r : Record) :
    List (String × Event) :=
  let meet := safeNA r "Meet Name"
  if meet = "N/A" then events
  else
    match dictGet events meet with
    | none => events ++ [(meet, ⟨dateOf r, placeOf r, urlOf r⟩)]
    | some e =>
      let d := match dateOf r, e.date with
        | some nd, none => some nd
        | some nd, some cd => if nd < cd then some nd else some cd
        | none, cd => cd
      let p := match placeOf r, e.best_place with
        | some np, none => some np
        | some np, some cp => if np < cp then some np else some cp
        | none, cp => cp
      let u := if e.url = "" ∧ urlOf r ≠ "N/A" then urlOf r else e.url
      dictSet events meet ⟨d, p, u⟩

/-- The events dictionary over the whole flat record sequence. -/
def team_events (rows : List Record) : List (String × Event) :=
  rows.foldl eventsStep []

/-- The sort key `x[1]["date"] or datetime.max`: an absent date sorts as
`datetime.max`, which is strictly above every parsed date (parsed dates
carry midnight time, `datetime.max` is the last microsecond of year
9999), encoded here as one past the largest date key. -/
def eventKey (pe : String × Event) : Nat :=
  match pe.2.date with
  | some d => d
  | none => 99991232

/-- Ascending comparison on the sort key. -/
def eventLe (x y : String × Event) : Bool :=
  decide (eventKey x ≤ eventKey y)

/-- The date-sorted event list (`sorted(events.items(), key=...)`,
stable, ascending). -/
def team_events_sorted (rows : List Record) : List (String × Event) :=
  sortStable eventLe (team_events rows)

/-- `strftime("%Y-%m-%d")` of a date key. -/
def dateStr (d : Nat) : String :=
  let pad4 := fun n : Nat => (if n < 10 then "000" else if n < 100 then "00" else if n < 1000 then "0" else "") ++ toString n
  let pad2 := fun n : Nat => (if n < 10 then "0" else "") ++ toString n
  pad4 (d / 10000) ++ "-" ++ pad2 (d / 100 % 100) ++ "-" ++ pad2 (d % 100)

/-- Rendering of one team-events table row. -/
def eventRowHtml (pe : String × Event) : String :=
  let dstr := match pe.2.date with
    | some d => dateStr d
    | none => "N/A"
  let pstr := match pe.2.best_place with
    | some p => toString p ++ " place"
    | none => "N/A"
  let lnk := if pe.2.url ≠ "" ∧ pe.2.url ≠ "N/A" then
      "<a href=\"" ++ pe.2.url ++ "\" target=\"_blank\">View Results</a>"
    else "N/A"
  "<tr><td>" ++ pe.1 ++ "</td><td>" ++ dstr ++ "</td><td>" ++ pstr ++ "</td><td>" ++ lnk ++ "</td></tr>"

/-- `build_team_events_rows(rows)`: the joined HTML rows of the sorted
event list. -/
def build_team_events_rows (rows : List Record) : String :=
  joinSep "\n" ((team_events_sorted rows).map eventRowHtml)

/-! ## Spec-side characterizations for the events list -/

/-- The records contributing to meet `m` (those whose normalized meet
name equals it). -/
def eventContribs (rows : List Record) (m : String) : List Record :=
  rows.filter (fun r => safeNA r "Meet Name" = m)

/-- Running minimum with `none` start (the fold both date and place
merging perform). -/
def minFold {α : Type} [LinearOrder α] (l : List α) : Option α :=
  l.foldl
    (fun acc x =>
      match acc with
      | none => some x
      | some c => if x < c then some x else some c)
    none

/-- The URL the events loop keeps for a meet, given the URLs of its
contributing records in order: the first record's URL, and while the kept
URL is blank, the next URL that is not the literal string sentinel. -/
def urlScan (s : String) : List String → String
  | [] => s
  | u :: us => urlScan (if s = "" ∧ u ≠ "N/A" then u else s) us

def specUrl (cs : List Record) : String :=
  match cs.map urlOf with
  | [] => ""
  | u :: us => urlScan u us

/-- The event the loop ends with for meet `m`, described directly from
the contributing records. -/
def specEvent (rows : List Record) (m : String) : Option Event :=
  if m = "N/A" then none
  else
    match eventContribs rows m with
    | [] => none
    | cs => some ⟨minFold (cs.filterMap dateOf), minFold (cs.filterMap placeOf), specUrl cs⟩

/-- The claim's own reading of the URL rule, for the record: the first
non-empty results URL encountered in record order. -/
def claimFirstUrl (rows : List Record) (m : String) : Option String :=
  ((eventContribs rows m).map urlOf).find? (fun u => u ≠ "")

/-! ## Further spec-side definitions and concrete inputs used by the
claim theorems -/

/-- The fold step of both record-minimum loops: on a parseable time,
keep the smaller seconds value together with its raw time string
(strict comparison: the first record achieving the minimum keeps the
string). -/
def prStep (acc : Option ℚ × String) (r : Record) : Option ℚ × String :=
  match timeOf r with
  | some q =>
    match acc.1 with
    | none => (some q, safeNA r "Time")
    | some c => if q < c then (some q, safeNA r "Time") else acc
  | none => acc

def prFold (init : Option ℚ × String) (rs : List Record) : Option ℚ × String :=
  rs.foldl prStep init

/-- One step of the running minimum. -/
def minStep {α : Type} [LinearOrder α] (acc : Option α) (x : α) : Option α :=
  match acc with
  | none => some x
  | some c => if x < c then some x else some c

/-- Whether the `Time` field of a record passes `time_to_seconds` without
raising (its result may still be the `None` sentinel). -/
def timeOk (r : Record) : Bool :=
  match time_to_seconds (safeNA r "Time") with
  | .ok _ => true
  | .error _ => false

/-- Whether a record contributes to the meets map under meet name `m`. -/
def meetContrib (m : String) (r : Record) : Bool :=
  decide (safeNA r "Meet Name" = m) && pyIsDigit (safeNA r "Overall Place")

/-- The place value stored for a contributing record. -/
def meetPlaceVal (r : Record) : Int :=
  (digitsToNat (safeNA r "Overall Place").data : Int)

/-! Concrete inputs for witnesses and counterexamples. -/

def c1Stats : Stats :=
  ⟨"21615274", "Garrett", "11", "17:30", "17:30", "./p.jpg", 1, [("County Championships", 2)]⟩

/-- An athletes mapping holding only the hard-wired default athlete. -/
def c1Single : List (String × Stats) := [("21615274", c1Stats)]

def notEnoughMsg : String := "<p>Not enough athletes to compare.</p>"

/-- Two records of the same meet, places 3 then 5.  The lowest place is
3; the loop stores the last one, 5. -/
def c2Records : List Record :=
  [[("Meet Name", "A"), ("Overall Place", "3")],
   [("Meet Name", "A"), ("Overall Place", "5")]]

/-- The spec's example: Aug 1 2024 grade 10 time 18:00, then Sep 1 2024
grade 11 time 17:30. -/
def c3Records : List Record :=
  [[("Name", "X"), ("Date", "Aug 1 2024"), ("Grade", "10"), ("Time", "18:00")],
   [("Name", "X"), ("Date", "Sep 1 2024"), ("Grade", "11"), ("Time", "17:30")]]

/-- A record with everything unparseable in the sentinel sense (date not
a date, grade not a grade, time without a colon). -/
def c4Records : List Record :=
  [[("Date", "soon"), ("Grade", "N/A"), ("Time", "dnf")]]

/-- A record whose time contains a colon but is malformed: the parser
raises instead of returning its sentinel. -/
def c4BadRecords : List Record :=
  [[("Time", "1:2:3")]]

/-- Three records of one meet whose URLs are blank, the literal string
sentinel, and a real link, in that order. -/
def c8Records : List Record :=
  [[("Meet Name", "M")],
   [("Meet Name", "M"), ("Meet Results URL", "N/A")],
   [("Meet Name", "M"), ("Meet Results URL", "http://x")]]

/-- Rows for the sortedness witness: two meets with dates out of order
and one meet without a date. -/
def c8MixRecords : List Record :=
  [[("Meet Name", "Late"), ("Date", "Sep 7 2024"), ("Overall Place", "7")],
   [("Meet Name", "NoDate")],
   [("Meet Name", "Early"), ("Date", "Aug 31 2024"), ("Overall Place", "3")]]

def c9StatsA : Stats :=
  ⟨"1", "A", "11", "17:30", "17:30", "./a.jpg", 2,
    [("County Championships", 2), ("Riverside Invite", 1)]⟩

def c9StatsB : Stats :=
  ⟨"2", "B", "12", "18:00", "18:00", "./b.jpg", 2,
    [("County Championships", 5), ("Hilltop Classic", 3)]⟩

/-- Records with distinct season and personal records: the fastest time
was run in grade 10, the current grade is 11. -/
def c10Records : List Record :=
  [[("Date", "Aug 1 2023"), ("Grade", "10"), ("Time", "17:01.2")],
   [("Date", "Sep 1 2024"), ("Grade", "11"), ("Time", "17:30")],
   [("Date", "Oct 1 2024"), ("Grade", "11"), ("Time", "18:05.5")]]

/-! # Proofs

## Bridge lemmas: the kernel-friendly rational operations are the
ordinary ones -/

theorem intToQ_eq (n : Int) : intToQ n = (n : ℚ) := by
  simp [intToQ, Rat.divInt_eq_div]

theorem qOfNat_eq (n : Nat) : qOfNat n = (n : ℚ) := by
  simp [qOfNat, Rat.mkRat_eq_div]

theorem qAdd_eq (a b : ℚ) : qAdd a b = a + b := by
  rw [qAdd, Rat.mkRat_eq_div]
  push_cast
  conv_rhs => rw [← Rat.num_div_den a, ← Rat.num_div_den b]
  rw [div_add_div _ _ (by exact_mod_cast a.den_nz) (by exact_mod_cast b.den_nz)]
  ring_nf

theorem qMul_eq (a b : ℚ) : qMul a b = a * b := by
  rw [qMul, Rat.mkRat_eq_div]
  push_cast
  conv_rhs => rw [← Rat.num_div_den a, ← Rat.num_div_den b]
  rw [div_mul_div_comm]

theorem qDiv_eq (a b : ℚ) : qDiv a b = a / b := by
  rcases eq_or_ne b 0 with hb | hb
  · subst hb; simp [qDiv]
  · have hbn : (b.num : ℤ) ≠ 0 := Rat.num_ne_zero.mpr hb
    have had : ((a.den : ℤ)) ≠ 0 := by exact_mod_cast a.den_nz
    rw [qDiv, div_eq_mul_inv, Rat.inv_def']
    conv_rhs => rw [← Rat.num_divInt_den a]
    rw [Rat.divInt_mul_divInt _ _ had hbn]

/-! ## Stable insertion sort: permutation, sortedness -/

theorem insertStable_perm {α : Type} (le : α → α → Bool) (x : α) (l : List α) :
    List.Perm (insertStable le x l) (x :: l) := by
  induction l with
  | nil => simp [insertStable]
  | cons y ys ih =>
    simp only [insertStable]
    split
    · exact List.Perm.refl _
    · exact (ih.cons y).trans (List.Perm.swap x y ys)

theorem sortStable_perm {α : Type} (le : α → α → Bool) (l : List α) :
    List.Perm (sortStable le l) l := by
  induction l with
  | nil => simp [sortStable]
  | cons x xs ih =>
    have h1 : sortStable le (x :: xs) = insertStable le x (sortStable le xs) := rfl
    rw [h1]
    exact (insertStable_perm le x (sortStable le xs)).trans (ih.cons x)

theorem insertStable_pairwise {α : Type} (le : α → α → Bool)
    (htot : ∀ a b, le a b = true ∨ le b a = true)
    (htrans : ∀ a b c, le a b = true → le b c = true → le a c = true)
    (x : α) (l : List α)
    (h : List.Pairwise (fun a b => le a b = true) l) :
    List.Pairwise (fun a b => le a b = true) (insertStable le x l) := by
  induction l with
  | nil => simp [insertStable]
  | cons y ys ih =>
    rcases List.pairwise_cons.mp h with ⟨hy, hys⟩
    simp only [insertStable]
    split
    · rename_i hxy
      refine List.pairwise_cons.mpr ⟨?_, h⟩
      intro z hz
      rcases List.mem_cons.mp hz with hz | hz
      · subst hz; exact hxy
      · exact htrans x y z hxy (hy z hz)
    · rename_i hxy
      have hyx : le y x = true := by
        rcases htot x y with h1 | h1
        · exact absurd h1 hxy
        · exact h1
      refine List.pairwise_cons.mpr ⟨?_, ih hys⟩
      intro z hz
      have hz2 : z ∈ x :: ys := (insertStable_perm le x ys).mem_iff.mp hz
      rcases List.mem_cons.mp hz2 with hz1 | hz1
      · subst hz1; exact hyx
      · exact hy z hz1
      
theorem sortStable_pairwise {α : Type} (le : α → α → Bool)
    (htot : ∀ a b, le a b = true ∨ le b a = true)
    (htrans : ∀ a b c, le a b = true → le b c = true → le a c = true)
    (l : List α) :
    List.Pairwise (fun a b => le a b = true) (sortStable le l) := by
  induction l with
  | nil => simp [sortStable]
  | cons x xs ih => exact insertStable_pairwise le htot htrans x _ ih


/-! ## Dictionary lemmas -/

theorem dictGet_cons {β : Type} (p : String × β) (m : List (String × β)) (x : String) :
    dictGet (p :: m) x = if p.1 = x then some p.2 else dictGet m x := by
  by_cases h : p.1 = x <;> simp [dictGet, List.find?, h]

theorem dictGet_map_ne {β : Type} (m : List (String × β)) (k x : String) (v : β)
    (hx : x ≠ k) :
    dictGet (m.map (fun p => if p.1 = k then (k, v) else p)) x = dictGet m x := by
  induction m with
  | nil => rfl
  | cons p m' ih =>
    rw [List.map_cons, dictGet_cons, dictGet_cons]
    by_cases hpk : p.1 = k
    · rw [if_pos hpk]
      have h1 : ¬ ((k, v) : String × β).1 = x := fun h => hx h.symm
      have h2 : ¬ p.1 = x := by rw [hpk]; exact fun h => hx h.symm
      rw [if_neg h1, if_neg h2, ih]
    · rw [if_neg hpk]
      by_cases hpx : p.1 = x
      · rw [if_pos hpx, if_pos hpx]
      · rw [if_neg hpx, if_neg hpx, ih]

theorem dictGet_map_self {β : Type} (m : List (String × β)) (k : String) (v : β)
    (hany : m.any (fun p => p.1 = k) = true) :
    dictGet (m.map (fun p => if p.1 = k then (k, v) else p)) k = some v := by
  induction m with
  | nil => simp at hany
  | cons p m' ih =>
    rw [List.map_cons, dictGet_cons]
    by_cases hpk : p.1 = k
    · rw [if_pos hpk]
      simp
    · rw [if_neg hpk, if_neg hpk]
      apply ih
      simp only [List.any_cons, decide_eq_true_eq, Bool.or_eq_true] at hany
      rcases hany with h | h
      · exact absurd h hpk
      · exact h

theorem dictGet_append_one {β : Type} (m : List (String × β)) (k x : String) (v : β) :
    dictGet (m ++ [(k, v)]) x =
      match dictGet m x with
      | some w => some w
      | none => if x = k then some v else none := by
  induction m with
  | nil =>
    by_cases hx : x = k
    · simp [dictGet, List.find?, hx]
    · have : ¬ (k = x) := fun h => hx h.symm
      simp [dictGet, List.find?, this, hx]
  | cons p m' ih =>
    rw [List.cons_append, dictGet_cons, dictGet_cons]
    by_cases hpx : p.1 = x
    · rw [if_pos hpx, if_pos hpx]
    · rw [if_neg hpx, if_neg hpx, ih]

theorem dictGet_dictSet {β : Type} (m : List (String × β)) (k : String) (v : β)
    (x : String) :
    dictGet (dictSet m k v) x = if x = k then some v else dictGet m x := by
  unfold dictSet
  by_cases hany : m.any (fun p => p.1 = k) = true
  · rw [if_pos hany]
    by_cases hx : x = k
    · subst hx; rw [if_pos rfl]; exact dictGet_map_self m x v hany
    · rw [if_neg hx]; exact dictGet_map_ne m k x v hx
  · rw [if_neg hany]
    rw [dictGet_append_one]
    have hnone : dictGet m k = none := by
      have hf : m.find? (fun p => p.1 = k) = none := by
        apply List.find?_eq_none.mpr
        intro p hp
        simp only [decide_eq_true_eq]
        intro hpk
        exact hany (List.any_eq_true.mpr ⟨p, hp, by simp [hpk]⟩)
      simp [dictGet, hf]
    by_cases hx : x = k
    · subst hx
      rw [hnone, if_pos rfl]
    · cases hm : dictGet m x with
      | some w => simp [hx]
      | none => simp [hx]

theorem dictGet_eq_none_iff {β : Type} (m : List (String × β)) (x : String) :
    dictGet m x = none ↔ x ∉ m.map (·.1) := by
  induction m with
  | nil => simp [dictGet]
  | cons p m' ih =>
    rw [dictGet_cons, List.map_cons]
    by_cases hpx : p.1 = x
    · simp [hpx]
    · rw [if_neg hpx]
      simp only [List.mem_cons, ih]
      constructor
      · rintro h (h1 | h1)
        · exact hpx h1.symm
        · exact h h1
      · intro h
        exact fun h1 => h (Or.inr h1)

theorem dictGet_some_mem {β : Type} (m : List (String × β)) (x : String) (v : β)
    (h : dictGet m x = some v) : (x, v) ∈ m := by
  induction m with
  | nil => simp [dictGet] at h
  | cons p m' ih =>
    rw [dictGet_cons] at h
    by_cases hpx : p.1 = x
    · rw [if_pos hpx] at h
      injection h with h
      have hp : p = (x, v) := Prod.ext hpx h
      rw [hp]
      exact List.mem_cons_self _ _
    · rw [if_neg hpx] at h
      exact List.mem_cons_of_mem p (ih h)

theorem mem_nodup_dictGet {β : Type} (m : List (String × β)) (x : String) (v : β)
    (hnd : (m.map (·.1)).Nodup) (hmem : (x, v) ∈ m) : dictGet m x = some v := by
  induction m with
  | nil => simp at hmem
  | cons p m' ih =>
    simp only [List.map_cons, List.nodup_cons] at hnd
    rw [dictGet_cons]
    rcases List.mem_cons.mp hmem with h1 | h1
    · rw [← h1]
      simp
    · have hpx : ¬ p.1 = x := by
        intro h
        exact hnd.1 (h ▸ (List.mem_map.mpr ⟨(x, v), h1, rfl⟩))
      rw [if_neg hpx]
      exact ih hnd.2 h1

/-! ## Claim C1: comparison athlete selection -/

/-- Claim C1 (amended): when the hard-wired default athlete id is present
in the mapping, the builder selects that athlete as BOTH sides of the
comparison (even when it is the only athlete, so no insufficient-data
message appears then); otherwise it selects the first two athletes in
iteration order; otherwise (default absent, fewer than two athletes) it
selects nothing and `build_player_comparison_html` reports the
not-enough-athletes message. -/
theorem claim_C1_amended (athletes : List (String × Stats)) :
    (∀ s, dictGet athletes DEFAULT_ID = some s →
        choose_default_comparison athletes = (some s, some s)) ∧
    (dictGet athletes DEFAULT_ID = none →
      (∀ p0 p1 rest, athletes = p0 :: p1 :: rest →
          choose_default_comparison athletes = (some p0.2, some p1.2)) ∧
      (athletes.length < 2 →
          choose_default_comparison athletes = (none, none) ∧
          build_player_comparison_html athletes = notEnoughMsg)) := by
  constructor
  · intro s hs
    simp [choose_default_comparison, hs]
  · intro hnone
    constructor
    · intro p0 p1 rest hshape
      subst hshape
      simp [choose_default_comparison, hnone]
    · intro hlen
      have hchoose : choose_default_comparison athletes = (none, none) := by
        match athletes, hlen with
        | [], _ => simp [choose_default_comparison, hnone]
        | [p], _ => simp [choose_default_comparison] at hnone ⊢; simp [hnone]
      refine ⟨hchoose, ?_⟩
      simp [build_player_comparison_html, hchoose, notEnoughMsg]

/-- Claim C1, as stated, is false: with only the default athlete present
(a single athlete in the mapping), the builder does not report the
not-enough-athletes message; it compares the default athlete with itself. -/
theorem claim_C1_counterexample :
    c1Single.length < 2 ∧
    choose_default_comparison c1Single = (some c1Stats, some c1Stats) ∧
    build_player_comparison_html c1Single ≠ notEnoughMsg := by
  refine ⟨by decide, by decide, by decide⟩

theorem claim_C1_witness :
    choose_default_comparison c1Single = (some c1Stats, some c1Stats) ∧
    build_player_comparison_html ([] : List (String × Stats)) = notEnoughMsg := by
  constructor
  · exact (claim_C1_amended c1Single).1 c1Stats (by decide)
  · exact (((claim_C1_amended []).2 (by decide)).2 (by decide)).2

/-! ## Claim C2: the per-athlete meets map -/

theorem athleteMeets_append (rs : List Record) (r : Record) :
    athleteMeets (rs ++ [r]) = meetsStep (athleteMeets rs) r := by
  simp [athleteMeets, List.foldl_append]

/-- Claim C2 (amended): the meets map of `build_athlete_stats` associates
each non-sentinel meet name having a digit overall place with the place
of the LAST contributing record in input order (not the lowest). -/
theorem claim_C2_amended (rs : List Record) (m : String) :
    dictGet (athleteMeets rs) m =
      if m = "N/A" then none
      else ((rs.filter (meetContrib m)).getLast?).map meetPlaceVal := by
  induction rs using List.reverseRecOn with
  | nil =>
    simp [athleteMeets, dictGet]
  | append_singleton rs r ih =>
    rw [athleteMeets_append]
    unfold meetsStep
    by_cases hc : safeNA r "Meet Name" ≠ "N/A" ∧ pyIsDigit (safeNA r "Overall Place") = true
    · rw [if_pos (by exact ⟨hc.1, hc.2⟩), dictGet_dictSet]
      by_cases hm : m = safeNA r "Meet Name"
      · rw [if_pos hm]
        have hmna : ¬ (m = "N/A") := fun h => hc.1 (h ▸ hm.symm)
        rw [if_neg hmna]
        have hcontrib : meetContrib m r = true := by
          simp [meetContrib, hm.symm, hc.2]
        rw [List.filter_append]
        have : List.filter (meetContrib m) [r] = [r] := by
          simp [hcontrib]
        rw [this]
        have hlast : ((rs.filter (meetContrib m)) ++ [r]).getLast? = some r := by
          simp
        rw [hlast]
        rfl
      · rw [if_neg hm, ih]
        have hcontrib : meetContrib m r = false := by
          simp only [meetContrib, Bool.and_eq_false_iff]
          left
          simp only [decide_eq_false_iff_not]
          exact fun h => hm h.symm
        by_cases hmna : m = "N/A"
        · rw [if_pos hmna, if_pos hmna]
        · rw [if_neg hmna, if_neg hmna]
          rw [List.filter_append]
          have : List.filter (meetContrib m) [r] = [] := by
            simp [hcontrib]
          rw [this, List.append_nil]
    · rw [if_neg hc, ih]
      by_cases hmna : m = "N/A"
      · rw [if_pos hmna, if_pos hmna]
      · rw [if_neg hmna, if_neg hmna]
        have hcontrib : meetContrib m r = false := by
          rcases Decidable.not_and_iff_or_not.mp hc with h | h
          · have hrm : safeNA r "Meet Name" = "N/A" := not_not.mp h
            simp only [meetContrib, Bool.and_eq_false_iff]
            left
            simp only [decide_eq_false_iff_not, hrm]
            exact fun h2 => hmna h2.symm
          · simp only [meetContrib, Bool.and_eq_false_iff]
            right
            revert h
            cases pyIsDigit (safeNA r "Overall Place") <;> simp
        rw [List.filter_append]
        have : List.filter (meetContrib m) [r] = [] := by
          simp [hcontrib]
        rw [this, List.append_nil]

/-- Claim C2, as stated, is false: for two records of meet `A` with
places 3 then 5 the map stores 5, while the lowest place seen is 3. -/
theorem claim_C2_counterexample :
    dictGet (athleteMeets c2Records) "A" = some 5 ∧
    minFold ((c2Records.filter (meetContrib "A")).map meetPlaceVal) = some 3 ∧
    (5 : Int) ≠ 3 := by
  refine ⟨by decide, by decide, by decide⟩

/-! ## String-primitive lemmas -/

theorem isDigit_not_isSpace (c : Char) (h : c.isDigit = true) : isSpace c = false := by
  revert h
  unfold isSpace
  by_cases h1 : c = ' '
  · subst h1; decide
  · by_cases h2 : c = '\t'
    · subst h2; decide
    · by_cases h3 : c = '\n'
      · subst h3; decide
      · by_cases h4 : c = '\r'
        · subst h4; decide
        · by_cases h5 : c = '\x0b'
          · subst h5; decide
          · by_cases h6 : c = '\x0c'
            · subst h6; decide
            · intro _
              simp [h1, h2, h3, h4, h5, h6]

theorem trimL_eq_self (cs : List Char) (h : ∀ c ∈ cs, isSpace c = false) :
    trimL cs = cs := by
  cases cs with
  | nil => rfl
  | cons c cs' =>
    unfold trimL
    rw [h c (List.mem_cons_self c cs')]
    simp

theorem trimR_eq_self (cs : List Char) (h : ∀ c ∈ cs, isSpace c = false) :
    trimR cs = cs := by
  unfold trimR
  rw [trimL_eq_self cs.reverse (fun c hc => h c (List.mem_reverse.mp hc))]
  exact List.reverse_reverse cs

theorem trimL_cons (c : Char) (cs : List Char) :
    trimL (c :: cs) = if isSpace c then trimL cs else c :: cs := rfl

theorem trimR_append_space (cs : List Char) :
    trimR (cs ++ [' ']) = trimR cs := by
  unfold trimR
  rw [List.reverse_append]
  simp only [List.reverse_cons, List.reverse_nil, List.nil_append, List.singleton_append]
  rw [trimL_cons, if_pos (by decide)]

theorem replacePR_cons2 (c d : Char) (cs : List Char) :
    replacePR (c :: d :: cs) =
      if c = 'P' ∧ d = 'R' then replacePR cs else c :: replacePR (d :: cs) := rfl

theorem replacePR_noP (cs : List Char) (h : 'P' ∉ cs) : replacePR cs = cs := by
  induction cs using replacePR.induct with
  | case1 => rfl
  | case2 c => rfl
  | case3 c d cs' hcd ih =>
    exfalso
    exact h (by rw [hcd.1]; exact List.mem_cons_self _ _)
  | case4 c d cs' hcd ih =>
    rw [replacePR_cons2, if_neg hcd]
    have hP : 'P' ∉ d :: cs' := fun hm => h (List.mem_cons_of_mem c hm)
    rw [ih hP]

theorem replacePR_append_noP (xs ys : List Char) (h : 'P' ∉ xs) :
    replacePR (xs ++ ys) = xs ++ replacePR ys := by
  induction xs with
  | nil => rfl
  | cons x xs' ih =>
    have hx : ¬ (x = 'P') := fun he => h (he ▸ List.mem_cons_self x xs')
    have hxs' : 'P' ∉ xs' := fun hm => h (List.mem_cons_of_mem x hm)
    rw [List.cons_append]
    cases hsh : xs' ++ ys with
    | nil =>
      rcases List.append_eq_nil.mp hsh with ⟨h1, h2⟩
      subst h1; subst h2
      rfl
    | cons z zs =>
      rw [replacePR_cons2]
      rw [if_neg (fun hand => hx hand.1)]
      rw [show (z :: zs : List Char) = xs' ++ ys from hsh.symm]
      rw [ih hxs']
      rw [List.cons_append]

theorem splitChar_cons (sep c : Char) (cs : List Char) :
    splitChar sep (c :: cs) =
      if c = sep then [] :: splitChar sep cs
      else
        match splitChar sep cs with
        | [] => [[c]]
        | p :: ps => (c :: p) :: ps := rfl

theorem splitChar_not_mem (sep : Char) (cs : List Char) (h : sep ∉ cs) :
    splitChar sep cs = [cs] := by
  induction cs with
  | nil => rfl
  | cons c cs' ih =>
    have hc : ¬ (c = sep) := fun he => h (he ▸ List.mem_cons_self c cs')
    have hcs' : sep ∉ cs' := fun hm => h (List.mem_cons_of_mem c hm)
    rw [splitChar_cons, if_neg hc, ih hcs']

theorem splitChar_append (sep : Char) (xs ys : List Char) (h : sep ∉ xs) :
    splitChar sep (xs ++ sep :: ys) = xs :: splitChar sep ys := by
  induction xs with
  | nil =>
    simp only [List.nil_append]
    rw [splitChar_cons, if_pos rfl]
  | cons x xs' ih =>
    have hx : ¬ (x = sep) := fun he => h (he ▸ List.mem_cons_self x xs')
    have hxs' : sep ∉ xs' := fun hm => h (List.mem_cons_of_mem x hm)
    rw [List.cons_append, splitChar_cons, if_neg hx, ih hxs']

theorem digit_ne_chars (c : Char) (h : c.isDigit = true) :
    c ≠ '+' ∧ c ≠ '-' ∧ c ≠ ':' ∧ c ≠ '.' ∧ c ≠ 'P' := by
  refine ⟨?_, ?_, ?_, ?_, ?_⟩ <;>
    · intro he
      rw [he] at h
      simp [Char.isDigit] at h

theorem pyInt_digits (ds : List Char) (hne : ds ≠ []) (hd : ds.all Char.isDigit = true) :
    pyInt ⟨ds⟩ = some (digitsToNat ds : Int) := by
  have hnospace : ∀ c ∈ ds, isSpace c = false := by
    intro c hc
    exact isDigit_not_isSpace c (by
      have := List.all_eq_true.mp hd c hc
      simpa using this)
  unfold pyInt
  simp only
  rw [trimL_eq_self ds hnospace, trimR_eq_self ds hnospace]
  cases ds with
  | nil => exact absurd rfl hne
  | cons d ds' =>
    have hdd : d.isDigit = true := by
      have := List.all_eq_true.mp hd d (List.mem_cons_self d ds')
      simpa using this
    rcases digit_ne_chars d hdd with ⟨h1, h2, _, _, _⟩
    have hh1 : ¬ ((d :: ds').head? = some '+') := by simp [h1]
    have hh2 : ¬ ((d :: ds').head? = some '-') := by simp [h2]
    rw [if_neg hh1, if_neg hh2]
    unfold natDigits
    rw [if_pos ⟨by simp, hd⟩]
    rfl

theorem pyFloat_fraction (ip fp : List Char) (hip : ip ≠ []) (hipd : ip.all Char.isDigit = true)
    (_hfp : fp ≠ []) (hfpd : fp.all Char.isDigit = true) :
    pyFloat ⟨ip ++ '.' :: fp⟩ =
      some ((digitsToNat ip : ℚ) + (digitsToNat fp : ℚ) / (10 : ℚ) ^ fp.length) := by
  have hipdd : ∀ c ∈ ip, c.isDigit = true := by
    intro c hc
    have := List.all_eq_true.mp hipd c hc
    simpa using this
  have hfpdd : ∀ c ∈ fp, c.isDigit = true := by
    intro c hc
    have := List.all_eq_true.mp hfpd c hc
    simpa using this
  have hnospace : ∀ c ∈ ip ++ '.' :: fp, isSpace c = false := by
    intro c hc
    rcases List.mem_append.mp hc with hc | hc
    · exact isDigit_not_isSpace c (hipdd c hc)
    · rcases List.mem_cons.mp hc with hc | hc
      · subst hc; decide
      · exact isDigit_not_isSpace c (hfpdd c hc)
  have hdot_ip : '.' ∉ ip := fun hm => (digit_ne_chars '.' (hipdd '.' hm)).2.2.2.1 rfl
  have hdot_fp : '.' ∉ fp := fun hm => (digit_ne_chars '.' (hfpdd '.' hm)).2.2.2.1 rfl
  unfold pyFloat
  simp only
  rw [trimL_eq_self _ hnospace, trimR_eq_self _ hnospace]
  cases hi : ip with
  | nil => exact absurd hi hip
  | cons d ds' =>
    have hdd : d.isDigit = true := hipdd d (by rw [hi]; exact List.mem_cons_self d ds')
    rcases digit_ne_chars d hdd with ⟨h1, h2, _, _, _⟩
    rw [← hi]
    have hh1 : ¬ ((ip ++ '.' :: fp).head? = some '+') := by
      rw [hi]; simp [h1]
    have hh2 : ¬ ((ip ++ '.' :: fp).head? = some '-') := by
      rw [hi]; simp [h2]
    rw [if_neg hh1, if_neg hh2]
    unfold pyFloatBody
    rw [splitChar_append '.' ip fp hdot_ip, splitChar_not_mem '.' fp hdot_fp]
    simp only
    rw [if_pos ⟨Or.inl hip, hipd, hfpd⟩]
    rw [qMul_eq, qAdd_eq, qDiv_eq, qOfNat_eq, qOfNat_eq, qOfNat_eq, intToQ_eq]
    push_cast
    ring_nf

/-! ## Time parser lemmas and claims C5, C6 -/

theorem tts_wellformed (mcs scs : List Char) (hm : mcs ≠ [])
    (hmd : mcs.all Char.isDigit = true)
    (hs_nocolon : ':' ∉ scs) (hs_noP : 'P' ∉ scs)
    (hs_nospace : ∀ c ∈ scs, isSpace c = false)
    (v : ℚ) (hv : pyFloat ⟨scs⟩ = some v) :
    time_to_seconds ⟨mcs ++ ':' :: scs⟩ =
      .ok (some ((digitsToNat mcs : ℚ) * 60 + v)) := by
  have hmdd : ∀ c ∈ mcs, c.isDigit = true := by
    intro c hc
    have := List.all_eq_true.mp hmd c hc
    simpa using this
  have hnoP : 'P' ∉ mcs ++ ':' :: scs := by
    intro hmem
    rcases List.mem_append.mp hmem with h1 | h1
    · exact (digit_ne_chars 'P' (hmdd 'P' h1)).2.2.2.2 rfl
    · rcases List.mem_cons.mp h1 with h2 | h2
      · exact absurd h2.symm (by decide)
      · exact hs_noP h2
  have hnospace : ∀ c ∈ mcs ++ ':' :: scs, isSpace c = false := by
    intro c hc
    rcases List.mem_append.mp hc with h1 | h1
    · exact isDigit_not_isSpace c (hmdd c h1)
    · rcases List.mem_cons.mp h1 with h2 | h2
      · subst h2; decide
      · exact hs_nospace c h2
  have hcolon_m : ':' ∉ mcs := fun hmem =>
    (digit_ne_chars ':' (hmdd ':' hmem)).2.2.1 rfl
  unfold time_to_seconds
  rw [if_pos (by
    show ':' ∈ (String.mk (mcs ++ ':' :: scs)).data
    simp)]
  simp only
  rw [replacePR_noP _ hnoP]
  rw [show (pyStrip ⟨mcs ++ ':' :: scs⟩).data = trimR (trimL (mcs ++ ':' :: scs)) from rfl]
  rw [trimL_eq_self _ hnospace, trimR_eq_self _ hnospace]
  rw [splitChar_append ':' mcs scs hcolon_m, splitChar_not_mem ':' scs hs_nocolon]
  simp only
  rw [pyInt_digits mcs hm hmd, hv]
  simp only
  rw [qAdd_eq, qMul_eq, intToQ_eq, qOfNat_eq]
  push_cast
  ring_nf

theorem tts_wellformed_pr (mcs scs : List Char) (hm : mcs ≠ [])
    (hmd : mcs.all Char.isDigit = true)
    (hs_nocolon : ':' ∉ scs) (hs_noP : 'P' ∉ scs)
    (hs_nospace : ∀ c ∈ scs, isSpace c = false)
    (v : ℚ) (hv : pyFloat ⟨scs⟩ = some v) :
    time_to_seconds ⟨(mcs ++ ':' :: scs) ++ [' ', 'P', 'R']⟩ =
      .ok (some ((digitsToNat mcs : ℚ) * 60 + v)) := by
  have hmdd : ∀ c ∈ mcs, c.isDigit = true := by
    intro c hc
    have := List.all_eq_true.mp hmd c hc
    simpa using this
  have hnoP : 'P' ∉ mcs ++ ':' :: scs := by
    intro hmem
    rcases List.mem_append.mp hmem with h1 | h1
    · exact (digit_ne_chars 'P' (hmdd 'P' h1)).2.2.2.2 rfl
    · rcases List.mem_cons.mp h1 with h2 | h2
      · exact absurd h2.symm (by decide)
      · exact hs_noP h2
  have hnospace : ∀ c ∈ mcs ++ ':' :: scs, isSpace c = false := by
    intro c hc
    rcases List.mem_append.mp hc with h1 | h1
    · exact isDigit_not_isSpace c (hmdd c h1)
    · rcases List.mem_cons.mp h1 with h2 | h2
      · subst h2; decide
      · exact hs_nospace c h2
  have hcolon_m : ':' ∉ mcs := fun hmem =>
    (digit_ne_chars ':' (hmdd ':' hmem)).2.2.1 rfl
  unfold time_to_seconds
  rw [if_pos (by
    show ':' ∈ ((mcs ++ ':' :: scs) ++ [' ', 'P', 'R'])
    simp)]
  simp only
  rw [replacePR_append_noP _ _ hnoP]
  rw [show replacePR [' ', 'P', 'R'] = [' '] from rfl]
  rw [show (pyStrip ⟨(mcs ++ ':' :: scs) ++ [' ']⟩).data
      = trimR (trimL ((mcs ++ ':' :: scs) ++ [' '])) from rfl]
  have htrimL : trimL ((mcs ++ ':' :: scs) ++ [' ']) = (mcs ++ ':' :: scs) ++ [' '] := by
    cases hmc : mcs with
    | nil => exact absurd hmc hm
    | cons d ms =>
      have hd : d.isDigit = true := hmdd d (by rw [hmc]; exact List.mem_cons_self d ms)
      rw [List.cons_append, List.cons_append, trimL_cons,
        if_neg (by rw [isDigit_not_isSpace d hd]; simp)]
  rw [htrimL, trimR_append_space, trimR_eq_self _ hnospace]
  rw [splitChar_append ':' mcs scs hcolon_m, splitChar_not_mem ':' scs hs_nocolon]
  simp only
  rw [pyInt_digits mcs hm hmd, hv]
  simp only
  rw [qAdd_eq, qMul_eq, intToQ_eq, qOfNat_eq]
  push_cast
  ring_nf

theorem tts_sentinel_iff (t : String) :
    time_to_seconds t = .ok none ↔ ':' ∉ t.data := by
  constructor
  · intro h
    by_contra hc
    unfold time_to_seconds at h
    rw [if_pos hc] at h
    revert h
    simp only
    cases splitChar ':' (pyStrip ⟨replacePR t.data⟩).data with
    | nil => simp
    | cons a us =>
      cases us with
      | nil => simp
      | cons b us2 =>
        cases us2 with
        | nil =>
          cases h1 : pyInt ⟨a⟩ with
          | none => simp [h1]
          | some mi =>
            cases h2 : pyFloat ⟨b⟩ with
            | none => simp [h1, h2]
            | some sv => simp [h1, h2]
        | cons c us3 => simp
  · intro h
    unfold time_to_seconds
    rw [if_neg h]

/-- Claim C5: the claim is the intended behavior (unparseable fields are
recovered by sentinel, never raised), but the code raises for time
strings that contain a colon yet are otherwise malformed, and the raised
error propagates to `build_summary`. -/
theorem claim_C5_bug :
    time_to_seconds "1:2:3" = .error () ∧
    time_to_seconds "ab:12" = .error () ∧
    time_to_seconds "1:2x" = .error () ∧
    build_summary [[("Time", "1:2:3")]] = .error () := by
  refine ⟨by decide, by decide, by decide, by decide⟩

/-- Claim C6: a well-formed clock string of integer minutes, a colon and
a decimal seconds part (optionally tagged with a trailing PR) parses to
minutes times sixty plus seconds; parsing the example gives 10423/10
seconds exactly; and the parser returns its unparseable sentinel exactly
when the string contains no colon. -/
theorem claim_C6 :
    (∀ mcs ip fp : List Char, mcs ≠ [] → mcs.all Char.isDigit = true →
      ip ≠ [] → ip.all Char.isDigit = true → fp ≠ [] → fp.all Char.isDigit = true →
      time_to_seconds ⟨mcs ++ ':' :: (ip ++ '.' :: fp)⟩ =
        .ok (some ((digitsToNat mcs : ℚ) * 60 +
          ((digitsToNat ip : ℚ) + (digitsToNat fp : ℚ) / (10 : ℚ) ^ fp.length))) ∧
      time_to_seconds ⟨(mcs ++ ':' :: (ip ++ '.' :: fp)) ++ [' ', 'P', 'R']⟩ =
        .ok (some ((digitsToNat mcs : ℚ) * 60 +
          ((digitsToNat ip : ℚ) + (digitsToNat fp : ℚ) / (10 : ℚ) ^ fp.length)))) ∧
    time_to_seconds "17:22.3" = .ok (some ((10423 : ℚ) / 10)) ∧
    (∀ t : String, time_to_seconds t = .ok none ↔ ':' ∉ t.data) := by
  have hgen : ∀ mcs ip fp : List Char, mcs ≠ [] → mcs.all Char.isDigit = true →
      ip ≠ [] → ip.all Char.isDigit = true → fp ≠ [] → fp.all Char.isDigit = true →
      time_to_seconds ⟨mcs ++ ':' :: (ip ++ '.' :: fp)⟩ =
        .ok (some ((digitsToNat mcs : ℚ) * 60 +
          ((digitsToNat ip : ℚ) + (digitsToNat fp : ℚ) / (10 : ℚ) ^ fp.length))) ∧
      time_to_seconds ⟨(mcs ++ ':' :: (ip ++ '.' :: fp)) ++ [' ', 'P', 'R']⟩ =
        .ok (some ((digitsToNat mcs : ℚ) * 60 +
          ((digitsToNat ip : ℚ) + (digitsToNat fp : ℚ) / (10 : ℚ) ^ fp.length))) := by
    intro mcs ip fp hm hmd hip hipd hfp hfpd
    have hipdd : ∀ c ∈ ip, c.isDigit = true := by
      intro c hc
      have := List.all_eq_true.mp hipd c hc
      simpa using this
    have hfpdd : ∀ c ∈ fp, c.isDigit = true := by
      intro c hc
      have := List.all_eq_true.mp hfpd c hc
      simpa using this
    have hs_nocolon : ':' ∉ ip ++ '.' :: fp := by
      intro hmem
      rcases List.mem_append.mp hmem with h1 | h1
      · exact (digit_ne_chars ':' (hipdd ':' h1)).2.2.1 rfl
      · rcases List.mem_cons.mp h1 with h2 | h2
        · exact absurd h2 (by decide)
        · exact (digit_ne_chars ':' (hfpdd ':' h2)).2.2.1 rfl
    have hs_noP : 'P' ∉ ip ++ '.' :: fp := by
      intro hmem
      rcases List.mem_append.mp hmem with h1 | h1
      · exact (digit_ne_chars 'P' (hipdd 'P' h1)).2.2.2.2 rfl
      · rcases List.mem_cons.mp h1 with h2 | h2
        · exact absurd h2 (by decide)
        · exact (digit_ne_chars 'P' (hfpdd 'P' h2)).2.2.2.2 rfl
    have hs_nospace : ∀ c ∈ ip ++ '.' :: fp, isSpace c = false := by
      intro c hc
      rcases List.mem_append.mp hc with h1 | h1
      · exact isDigit_not_isSpace c (hipdd c h1)
      · rcases List.mem_cons.mp h1 with h2 | h2
        · subst h2; decide
        · exact isDigit_not_isSpace c (hfpdd c h2)
    have hv := pyFloat_fraction ip fp hip hipd hfp hfpd
    exact ⟨tts_wellformed mcs _ hm hmd hs_nocolon hs_noP hs_nospace _ hv,
      tts_wellformed_pr mcs _ hm hmd hs_nocolon hs_noP hs_nospace _ hv⟩
  refine ⟨hgen, ?_, tts_sentinel_iff⟩
  have h1 := (hgen ['1', '7'] ['2', '2'] ['3'] (by decide) (by decide) (by decide)
    (by decide) (by decide) (by decide)).1
  have h2 : ("17:22.3" : String) =
      ⟨['1', '7'] ++ ':' :: (['2', '2'] ++ '.' :: ['3'])⟩ := rfl
  rw [h2, h1]
  congr 2
  norm_num [show digitsToNat ['1', '7'] = 17 from by decide,
    show digitsToNat ['2', '2'] = 22 from by decide,
    show digitsToNat ['3'] = 3 from by decide]

theorem claim_C6_witness :
    (['1', '7'] : List Char) ≠ [] ∧
    time_to_seconds ⟨['1', '7'] ++ ':' :: (['2', '2'] ++ '.' :: ['3'])⟩ =
      .ok (some ((digitsToNat ['1', '7'] : ℚ) * 60 +
        ((digitsToNat ['2', '2'] : ℚ) + (digitsToNat ['3'] : ℚ) / (10 : ℚ) ^ (['3'] : List Char).length))) := by
  refine ⟨by decide, ?_⟩
  exact (claim_C6.1 ['1', '7'] ['2', '2'] ['3'] (by decide) (by decide) (by decide)
    (by decide) (by decide) (by decide)).1

/-! ## Claim C7: CSV loading after the header line -/

theorem findHeaderIdx_none_iff (lines : List String) :
    findHeaderIdx lines = none ↔ ∀ l ∈ lines, pyStartsWith "Name," l = false := by
  induction lines with
  | nil => simp [findHeaderIdx]
  | cons l ls ih =>
    unfold findHeaderIdx
    by_cases hl : pyStartsWith "Name," l = true
    · rw [if_pos hl]
      simp [hl]
    · rw [if_neg hl]
      have hl' : pyStartsWith "Name," l = false := by
        revert hl
        cases pyStartsWith "Name," l <;> simp
      constructor
      · intro h
        have hnone : findHeaderIdx ls = none := by
          revert h
          cases findHeaderIdx ls <;> simp
        intro x hx
        rcases List.mem_cons.mp hx with h1 | h1
        · rw [h1]; exact hl'
        · exact (ih.mp hnone) x h1
      · intro h
        rw [ih.mpr (fun x hx => h x (List.mem_cons_of_mem l hx))]
        rfl

theorem findHeaderIdx_first (lines : List String) (i : Nat) (hi : i < lines.length)
    (hhit : pyStartsWith "Name," (lines.get ⟨i, hi⟩) = true)
    (hbefore : ∀ j (hj : j < i), pyStartsWith "Name," (lines.get ⟨j, Nat.lt_trans hj hi⟩) = false) :
    findHeaderIdx lines = some i := by
  induction lines generalizing i with
  | nil => simp at hi
  | cons l ls ih =>
    unfold findHeaderIdx
    cases i with
    | zero =>
      simp only [List.get] at hhit
      rw [if_pos hhit]
    | succ i' =>
      have hl : pyStartsWith "Name," l = false := by
        have := hbefore 0 (Nat.succ_pos i')
        simpa using this
      rw [if_neg (by rw [hl]; simp)]
      have hi' : i' < ls.length := Nat.lt_of_succ_lt_succ hi
      have hhit' : pyStartsWith "Name," (ls.get ⟨i', hi'⟩) = true := by
        simpa using hhit
      have hbefore' : ∀ j (hj : j < i'),
          pyStartsWith "Name," (ls.get ⟨j, Nat.lt_trans hj hi'⟩) = false := by
        intro j hj
        have := hbefore (j + 1) (Nat.succ_lt_succ hj)
        simpa using this
      rw [ih i' hi' hhit' hbefore']
      rfl

/-- Claim C7: `read_csv_after_header` reports an error exactly when no
line starts with the literal prefix `Name,` (case-sensitive), and
otherwise returns the records parsed from the first such line onward,
in order. -/
theorem claim_C7 (lines : List String) :
    (read_csv_after_header lines = .error () ↔
      ∀ l ∈ lines, pyStartsWith "Name," l = false) ∧
    (∀ i (hi : i < lines.length),
      pyStartsWith "Name," (lines.get ⟨i, hi⟩) = true →
      (∀ j (hj : j < i), pyStartsWith "Name," (lines.get ⟨j, Nat.lt_trans hj hi⟩) = false) →
      read_csv_after_header lines = .ok (dictReader (lines.drop i))) := by
  constructor
  · constructor
    · intro herr
      unfold read_csv_after_header at herr
      cases hf : findHeaderIdx lines with
      | none => exact (findHeaderIdx_none_iff lines).mp hf
      | some i =>
        rw [hf] at herr
        exact absurd herr (by simp)
    · intro hall
      unfold read_csv_after_header
      rw [(findHeaderIdx_none_iff lines).mpr hall]
  · intro i hi hhit hbefore
    unfold read_csv_after_header
    rw [findHeaderIdx_first lines i hi hhit hbefore]

theorem claim_C7_witness :
    read_csv_after_header ["junk", "Name,Date", "Bob,Aug 1 2024"] =
      .ok (dictReader (["junk", "Name,Date", "Bob,Aug 1 2024"].drop 1)) ∧
    read_csv_after_header ["junk", "nope"] = .error () := by
  constructor
  · exact (claim_C7 ["junk", "Name,Date", "Bob,Aug 1 2024"]).2 1 (by decide) (by decide)
      (by
        intro j hj
        have hj0 : j = 0 := by omega
        subst hj0
        show pyStartsWith "Name," "junk" = false
        decide)
  · exact (claim_C7 ["junk", "nope"]).1.mpr (by decide)

/-! ## Minimum-fold lemmas -/

theorem minStep_none {α : Type} [LinearOrder α] (x : α) :
    minStep (none : Option α) x = some x := rfl

theorem minStep_some {α : Type} [LinearOrder α] (c x : α) :
    minStep (some c) x = if x < c then some x else some c := rfl

theorem minStep_ne_none {α : Type} [LinearOrder α] (p : Option α) (x : α) :
    minStep p x ≠ none := by
  cases p with
  | none => simp [minStep_none]
  | some c =>
    rw [minStep_some]
    split <;> simp

theorem minStep_le {α : Type} [LinearOrder α] (p : Option α) (x v : α)
    (h : minStep p x = some v) : v ≤ x ∧ (∀ c, p = some c → v ≤ c) := by
  cases p with
  | none =>
    rw [minStep_none] at h
    injection h with h
    subst h
    exact ⟨le_refl x, fun c hc => by injection hc⟩
  | some c =>
    rw [minStep_some] at h
    by_cases hx : x < c
    · rw [if_pos hx] at h
      injection h with h
      subst h
      exact ⟨le_refl x, fun d hd => by injection hd with hd; subst hd; exact le_of_lt hx⟩
    · rw [if_neg hx] at h
      injection h with h
      subst h
      exact ⟨le_of_not_lt hx, fun d hd => by injection hd with hd; subst hd; exact le_refl c⟩

theorem minfold_none_iff {α : Type} [LinearOrder α] (l : List α) (p : Option α) :
    l.foldl minStep p = none ↔ p = none ∧ l = [] := by
  induction l generalizing p with
  | nil => simp
  | cons x xs ih =>
    rw [List.foldl_cons]
    constructor
    · intro h
      exact absurd ((ih (minStep p x)).mp h).1 (minStep_ne_none p x)
    · intro h
      exact absurd h.2 (by simp)

theorem minfold_some {α : Type} [LinearOrder α] (l : List α) (p : Option α) (m : α)
    (h : l.foldl minStep p = some m) :
    (m ∈ l ∨ p = some m) ∧ (∀ q ∈ l, m ≤ q) ∧ (∀ c, p = some c → m ≤ c) := by
  induction l generalizing p with
  | nil =>
    simp only [List.foldl_nil] at h
    refine ⟨Or.inr h, by simp, fun c hc => ?_⟩
    rw [h] at hc
    injection hc with hc
    rw [hc]
  | cons x xs ih =>
    rw [List.foldl_cons] at h
    rcases ih (minStep p x) h with ⟨hmem, hle, hacc⟩
    cases hms : minStep p x with
    | none => exact absurd hms (minStep_ne_none p x)
    | some v =>
      rcases minStep_le p x v hms with ⟨hvx, hvc⟩
      have hmv : m ≤ v := hacc v hms
      constructor
      · rcases hmem with h1 | h1
        · exact Or.inl (List.mem_cons_of_mem x h1)
        · rw [hms] at h1
          injection h1 with h1
          subst h1
          cases p with
          | none =>
            rw [minStep_none] at hms
            injection hms with hms
            exact Or.inl (by rw [hms]; exact List.mem_cons_self _ _)
          | some c =>
            rw [minStep_some] at hms
            by_cases hx : x < c
            · rw [if_pos hx] at hms
              injection hms with hms
              exact Or.inl (by rw [hms]; exact List.mem_cons_self _ _)
            · rw [if_neg hx] at hms
              injection hms with hms
              exact Or.inr (by rw [hms])
      · refine ⟨fun q hq => ?_, fun c hc => ?_⟩
        · rcases List.mem_cons.mp hq with h1 | h1
          · rw [h1]; exact le_trans hmv hvx
          · exact hle q h1
        · exact le_trans hmv (hvc c hc)

/-! ## prFold lemmas -/

theorem timeOf_some (r : Record) (q : ℚ) (h : timeOf r = some q) :
    time_to_seconds (safeNA r "Time") = .ok (some q) := by
  unfold timeOf at h
  cases ht : time_to_seconds (safeNA r "Time") with
  | ok o =>
    rw [ht] at h
    have h2 : o = some q := h
    rw [h2]
  | error e =>
    rw [ht] at h
    have h2 : (none : Option ℚ) = some q := h
    injection h2

theorem tts_NA : time_to_seconds "N/A" = .ok none := by decide

theorem prFold_cons (r : Record) (rs : List Record) (acc : Option ℚ × String) :
    prFold acc (r :: rs) = prFold (prStep acc r) rs := by
  simp [prFold]

theorem prStep_fst (p : Option ℚ) (ps : String) (r : Record) :
    (prStep (p, ps) r).1 =
      match timeOf r with
      | some q => minStep p q
      | none => p := by
  cases ht : timeOf r with
  | none => simp [prStep, ht]
  | some q =>
    cases p with
    | none => simp [prStep, ht, minStep_none]
    | some c =>
      simp only [prStep, ht, minStep_some]
      split <;> rfl

theorem prFold_fst (rs : List Record) (p : Option ℚ) (ps : String) :
    (prFold (p, ps) rs).1 = (allTimes rs).foldl minStep p := by
  induction rs generalizing p ps with
  | nil => rfl
  | cons r rs ih =>
    rw [prFold_cons]
    rcases hps : prStep (p, ps) r with ⟨p', ps'⟩
    have h1 : p' = match timeOf r with
        | some q => minStep p q
        | none => p := by
      have := prStep_fst p ps r
      rw [hps] at this
      exact this
    rw [ih p' ps']
    cases ht : timeOf r with
    | none =>
      rw [ht] at h1
      rw [show allTimes (r :: rs) = allTimes rs from by
        simp [allTimes, List.filterMap_cons, ht]]
      rw [h1]
    | some q =>
      rw [ht] at h1
      rw [show allTimes (r :: rs) = q :: allTimes rs from by
        simp [allTimes, List.filterMap_cons, ht]]
      rw [List.foldl_cons, h1]

theorem prStep_inv (p : Option ℚ) (ps : String) (r : Record)
    (h1 : p = none → ps = "N/A")
    (h2 : ∀ c, p = some c → time_to_seconds ps = .ok (some c)) :
    ((prStep (p, ps) r).1 = none → (prStep (p, ps) r).2 = "N/A") ∧
    (∀ c, (prStep (p, ps) r).1 = some c →
        time_to_seconds (prStep (p, ps) r).2 = .ok (some c)) := by
  cases ht : timeOf r with
  | none =>
    simp only [prStep, ht]
    exact ⟨h1, h2⟩
  | some q =>
    have hparse := timeOf_some r q ht
    cases p with
    | none =>
      simp only [prStep, ht]
      refine ⟨fun h => by injection h, fun c hc => ?_⟩
      injection hc with hc
      rw [← hc]
      exact hparse
    | some c0 =>
      simp only [prStep, ht]
      by_cases hq : q < c0
      · rw [if_pos hq]
        refine ⟨fun h => by injection h, fun c hc => ?_⟩
        injection hc with hc
        rw [← hc]
        exact hparse
      · rw [if_neg hq]
        exact ⟨h1, h2⟩

theorem prFold_inv (rs : List Record) (p : Option ℚ) (ps : String)
    (h1 : p = none → ps = "N/A")
    (h2 : ∀ c, p = some c → time_to_seconds ps = .ok (some c)) :
    ((prFold (p, ps) rs).1 = none → (prFold (p, ps) rs).2 = "N/A") ∧
    (∀ c, (prFold (p, ps) rs).1 = some c →
        time_to_seconds (prFold (p, ps) rs).2 = .ok (some c)) := by
  induction rs generalizing p ps with
  | nil => exact ⟨h1, h2⟩
  | cons r rs ih =>
    rw [prFold_cons]
    rcases hps : prStep (p, ps) r with ⟨p', ps'⟩
    have hstep := prStep_inv p ps r h1 h2
    rw [hps] at hstep
    exact ih p' ps' hstep.1 hstep.2

/-- The full specification of the running-minimum loop on an arbitrary
record list, starting from the initial accumulator. -/
theorem prFold_spec (rs : List Record) :
    ((prFold (none, "N/A") rs).2 = "N/A" ↔ allTimes rs = []) ∧
    ((prFold (none, "N/A") rs).2 ≠ "N/A" →
      ∃ m, time_to_seconds (prFold (none, "N/A") rs).2 = .ok (some m) ∧
        m ∈ allTimes rs ∧ ∀ q ∈ allTimes rs, m ≤ q) := by
  have hfst := prFold_fst rs none "N/A"
  have hinv := prFold_inv rs none "N/A" (fun _ => rfl) (fun c hc => by injection hc)
  constructor
  · constructor
    · intro hna
      by_contra hne
      have hp : (prFold (none, "N/A") rs).1 ≠ none := by
        intro h0
        rw [hfst] at h0
        rcases (minfold_none_iff (allTimes rs) none).mp h0 with ⟨_, hnil⟩
        exact hne hnil
      cases hp' : (prFold (none, "N/A") rs).1 with
      | none => exact hp hp'
      | some m =>
        have := hinv.2 m hp'
        rw [hna] at this
        rw [tts_NA] at this
        injection this with this
        injection this
    · intro hnil
      apply hinv.1
      rw [hfst, hnil]
      rfl
  · intro hne
    cases hp' : (prFold (none, "N/A") rs).1 with
    | none =>
      exact absurd (hinv.1 hp') hne
    | some m =>
      refine ⟨m, hinv.2 m hp', ?_, ?_⟩
      · rw [hfst] at hp'
        rcases minfold_some (allTimes rs) none m hp' with ⟨hmem, _, _⟩
        rcases hmem with h | h
        · exact h
        · injection h
      · rw [hfst] at hp'
        exact (minfold_some (allTimes rs) none m hp').2.1

/-! ## loop1 and srLoop lemmas -/

theorem datedOf_single (r : Record) (dated : List (Nat × Record)) :
    (match parse_date (safeNA r "Date") with
      | some d => dated ++ [(d, r)]
      | none => dated) = dated ++ datedOf [r] := by
  cases hpd : parse_date (safeNA r "Date") <;>
    simp [datedOf, List.filterMap_cons, hpd]

theorem loop1_cons_err (r : Record) (rs : List Record) (dated : List (Nat × Record))
    (p : Option ℚ) (ps : String) (e : Unit)
    (hts : time_to_seconds (safeNA r "Time") = .error e) :
    loop1 (r :: rs) dated p ps = .error e := by
  conv_lhs => rw [loop1.eq_def]
  simp only [hts]

theorem loop1_cons_ok (r : Record) (rs : List Record) (dated : List (Nat × Record))
    (p : Option ℚ) (ps : String) (secs : Option ℚ)
    (hts : time_to_seconds (safeNA r "Time") = .ok secs) :
    loop1 (r :: rs) dated p ps =
      loop1 rs (dated ++ datedOf [r]) (prStep (p, ps) r).1 (prStep (p, ps) r).2 := by
  have hto : timeOf r = secs := by
    unfold timeOf
    rw [hts]
  conv_lhs => rw [loop1.eq_def]
  simp only [hts, datedOf_single]
  cases secs with
  | none => simp [prStep, hto]
  | some q =>
    cases p with
    | none => simp [prStep, hto]
    | some c =>
      by_cases hq : q < c
      · simp [prStep, hto, hq]
      · simp [prStep, hto, hq]

theorem loop1_spec (rs : List Record) (dated : List (Nat × Record))
    (p : Option ℚ) (ps : String)
    (dated' : List (Nat × Record)) (p' : Option ℚ) (ps' : String)
    (h : loop1 rs dated p ps = .ok (dated', p', ps')) :
    dated' = dated ++ datedOf rs ∧ (p', ps') = prFold (p, ps) rs := by
  induction rs generalizing dated p ps with
  | nil =>
    unfold loop1 at h
    injection h with h
    injection h with h1 h
    injection h with h2 h3
    subst h1; subst h2; subst h3
    simp [datedOf, prFold]
  | cons r rs ih =>
    cases hts : time_to_seconds (safeNA r "Time") with
    | error e =>
      rw [loop1_cons_err r rs dated p ps e hts] at h
      exact absurd h (by simp)
    | ok secs =>
      rw [loop1_cons_ok r rs dated p ps secs hts] at h
      rcases hps : prStep (p, ps) r with ⟨p2, ps2⟩
      rw [hps] at h
      rcases ih _ _ _ h with ⟨hd, hp⟩
      constructor
      · rw [hd, List.append_assoc]
        congr 1
        rw [show (r :: rs) = [r] ++ rs from rfl]
        unfold datedOf
        rw [List.filterMap_append]
      · rw [hp, prFold_cons, hps]

theorem loop1_ok (rs : List Record) (dated : List (Nat × Record))
    (p : Option ℚ) (ps : String)
    (hok : ∀ r ∈ rs, timeOk r = true) :
    ∃ out, loop1 rs dated p ps = .ok out := by
  induction rs generalizing dated p ps with
  | nil => exact ⟨(dated, p, ps), rfl⟩
  | cons r rs ih =>
    have hr := hok r (List.mem_cons_self r rs)
    have hok' : ∀ x ∈ rs, timeOk x = true :=
      fun x hx => hok x (List.mem_cons_of_mem r hx)
    unfold timeOk at hr
    cases hts : time_to_seconds (safeNA r "Time") with
    | error e => rw [hts] at hr; simp at hr
    | ok secs =>
      rw [loop1_cons_ok r rs dated p ps secs hts]
      exact ih _ _ _ hok'

theorem srLoop_cons_skip (r : Record) (rs : List Record) (cg : String)
    (s : Option ℚ) (ss : String)
    (hgm : gradeMatches cg r = false) :
    srLoop (r :: rs) cg s ss = srLoop rs cg s ss := by
  conv_lhs => rw [srLoop.eq_def]
  simp only
  by_cases hvg : is_valid_grade (safeNA r "Grade") = false
  · rw [if_pos hvg]
  · rw [if_neg hvg]
    have hvg2 : is_valid_grade (safeNA r "Grade") = true := by
      revert hvg
      cases is_valid_grade (safeNA r "Grade") <;> simp
    have hnorm : gradeNormalized (safeNA r "Grade") ≠ cg := by
      simp only [gradeMatches, hvg2, Bool.true_and, beq_eq_false_iff_ne] at hgm
      exact hgm
    rw [if_pos hnorm]

theorem srLoop_cons_err (r : Record) (rs : List Record) (cg : String)
    (s : Option ℚ) (ss : String) (e : Unit)
    (hgm : gradeMatches cg r = true)
    (hts : time_to_seconds (safeNA r "Time") = .error e) :
    srLoop (r :: rs) cg s ss = .error e := by
  have hgm2 := hgm
  simp only [gradeMatches, Bool.and_eq_true, beq_iff_eq] at hgm2
  have hvg2 : is_valid_grade (safeNA r "Grade") = true := hgm2.1
  have hnorm : gradeNormalized (safeNA r "Grade") = cg := hgm2.2
  conv_lhs => rw [srLoop.eq_def]
  simp only
  rw [if_neg (by rw [hvg2]; simp), if_neg (by rw [hnorm]; simp)]
  simp only [hts]

theorem srLoop_cons_ok (r : Record) (rs : List Record) (cg : String)
    (s : Option ℚ) (ss : String) (secs : Option ℚ)
    (hgm : gradeMatches cg r = true)
    (hts : time_to_seconds (safeNA r "Time") = .ok secs) :
    srLoop (r :: rs) cg s ss =
      srLoop rs cg (prStep (s, ss) r).1 (prStep (s, ss) r).2 := by
  have hto : timeOf r = secs := by
    unfold timeOf
    rw [hts]
  have hgm2 := hgm
  simp only [gradeMatches, Bool.and_eq_true, beq_iff_eq] at hgm2
  have hvg2 : is_valid_grade (safeNA r "Grade") = true := hgm2.1
  have hnorm : gradeNormalized (safeNA r "Grade") = cg := hgm2.2
  conv_lhs => rw [srLoop.eq_def]
  simp only
  rw [if_neg (by rw [hvg2]; simp), if_neg (by rw [hnorm]; simp)]
  simp only [hts]
  cases secs with
  | none => simp [prStep, hto]
  | some q =>
    cases s with
    | none => simp [prStep, hto]
    | some c =>
      by_cases hq : q < c
      · simp [prStep, hto, hq]
      · simp [prStep, hto, hq]

theorem srLoop_spec (rs : List Record) (cg : String) (s : Option ℚ) (ss : String)
    (s' : Option ℚ) (ss' : String)
    (h : srLoop rs cg s ss = .ok (s', ss')) :
    (s', ss') = prFold (s, ss) (rs.filter (gradeMatches cg)) := by
  induction rs generalizing s ss with
  | nil =>
    unfold srLoop at h
    injection h with h
    injection h with h1 h2
    subst h1; subst h2
    simp [prFold]
  | cons r rs ih =>
    cases hgm : gradeMatches cg r with
    | false =>
      rw [srLoop_cons_skip r rs cg s ss hgm] at h
      rw [show (r :: rs).filter (gradeMatches cg) = rs.filter (gradeMatches cg) from by
        simp [List.filter_cons, hgm]]
      exact ih _ _ h
    | true =>
      cases hts : time_to_seconds (safeNA r "Time") with
      | error e =>
        rw [srLoop_cons_err r rs cg s ss e hgm hts] at h
        exact absurd h (by simp)
      | ok secs =>
        rw [srLoop_cons_ok r rs cg s ss secs hgm hts] at h
        rw [show (r :: rs).filter (gradeMatches cg) =
            r :: rs.filter (gradeMatches cg) from by
          simp [List.filter_cons, hgm]]
        rw [prFold_cons]
        rcases hps : prStep (s, ss) r with ⟨s2, ss2⟩
        rw [hps] at h
        rw [← hps]
        rw [hps]
        exact ih _ _ h

theorem srLoop_ok (rs : List Record) (cg : String) (s : Option ℚ) (ss : String)
    (hok : ∀ r ∈ rs, timeOk r = true) :
    ∃ out, srLoop rs cg s ss = .ok out := by
  induction rs generalizing s ss with
  | nil => exact ⟨(s, ss), rfl⟩
  | cons r rs ih =>
    have hr := hok r (List.mem_cons_self r rs)
    have hok' : ∀ x ∈ rs, timeOk x = true :=
      fun x hx => hok x (List.mem_cons_of_mem r hx)
    cases hgm : gradeMatches cg r with
    | false =>
      rw [srLoop_cons_skip r rs cg s ss hgm]
      exact ih _ _ hok'
    | true =>
      unfold timeOk at hr
      cases hts : time_to_seconds (safeNA r "Time") with
      | error e => rw [hts] at hr; simp at hr
      | ok secs =>
        rw [srLoop_cons_ok r rs cg s ss secs hgm hts]
        exact ih _ _ hok'

/-! ## pickBest and the stable descending sort -/

theorem dateDescLe_total (a b : Nat × Record) :
    dateDescLe a b = true ∨ dateDescLe b a = true := by
  unfold dateDescLe
  rcases Nat.le_total b.1 a.1 with h | h
  · left; simpa using h
  · right; simpa using h

theorem dateDescLe_trans (a b c : Nat × Record)
    (h1 : dateDescLe a b = true) (h2 : dateDescLe b c = true) :
    dateDescLe a c = true := by
  unfold dateDescLe at h1 h2 ⊢
  simp only [decide_eq_true_eq] at h1 h2 ⊢
  exact le_trans h2 h1

theorem pickStep_none (x : Nat × Record) :
    pickStep none x = if validGradeRow x then some x else none := by
  unfold pickStep
  split <;> rfl

theorem pickStep_some (b x : Nat × Record) :
    pickStep (some b) x =
      if validGradeRow x then (if b.1 < x.1 then some x else some b) else some b := by
  unfold pickStep
  split <;> rfl

theorem pickAux (l : List (Nat × Record)) (a : Nat × Record) :
    l.foldl pickStep (some a) =
      match l.foldl pickStep none with
      | none => some a
      | some b => if a.1 < b.1 then some b else some a := by
  induction l generalizing a with
  | nil => rfl
  | cons z l ih =>
    rw [List.foldl_cons, List.foldl_cons, pickStep_none, pickStep_some]
    by_cases hz : validGradeRow z = true
    · rw [if_pos hz, if_pos hz]
      by_cases haz : a.1 < z.1
      · rw [if_pos haz, ih z]
        cases hB : l.foldl pickStep none with
        | none => simp [haz]
        | some b =>
          by_cases hzb : z.1 < b.1
          · simp [hzb, lt_trans haz hzb]
          · simp [hzb, haz]
      · rw [if_neg haz, ih a, ih z]
        cases hB : l.foldl pickStep none with
        | none => simp [haz]
        | some b =>
          by_cases hzb : z.1 < b.1
          · simp [hzb]
          · have hnab : ¬ a.1 < b.1 :=
              fun hab => haz (lt_of_lt_of_le hab (le_of_not_lt hzb))
            simp [hzb, hnab, haz]
    · rw [if_neg hz, if_neg hz]
      exact ih a

theorem pickBest_cons (x : Nat × Record) (xs : List (Nat × Record)) :
    pickBest (x :: xs) =
      if validGradeRow x then
        match pickBest xs with
        | none => some x
        | some b => if x.1 < b.1 then some b else some x
      else pickBest xs := by
  unfold pickBest
  rw [List.foldl_cons, pickStep_none]
  by_cases hx : validGradeRow x = true
  · rw [if_pos hx, if_pos hx]
    exact pickAux xs x
  · rw [if_neg hx, if_neg hx]

theorem find_insertStable (x : Nat × Record) (s : List (Nat × Record))
    (hs : List.Pairwise (fun a b => dateDescLe a b = true) s) :
    (insertStable dateDescLe x s).find? validGradeRow =
      match s.find? validGradeRow with
      | none => if validGradeRow x then some x else none
      | some b => if x.1 < b.1 then some b
                  else if validGradeRow x then some x else some b := by
  induction s with
  | nil =>
    simp only [insertStable, List.find?_nil, List.find?]
    split <;> simp [*]
  | cons y ys ih =>
    rcases List.pairwise_cons.mp hs with ⟨hy, hys⟩
    simp only [insertStable]
    by_cases hle : dateDescLe x y = true
    · rw [if_pos hle]
      have hyx : y.1 ≤ x.1 := by
        unfold dateDescLe at hle
        simpa using hle
      rw [List.find?_cons]
      cases hPx : validGradeRow x with
      | true =>
        cases hf : (y :: ys).find? validGradeRow with
        | none => simp
        | some b =>
          have hb_mem : b ∈ y :: ys := List.mem_of_find?_eq_some hf
          have hb_le : b.1 ≤ y.1 := by
            rcases List.mem_cons.mp hb_mem with h1 | h1
            · rw [h1]
            · have := hy b h1
              unfold dateDescLe at this
              simpa using this
          have : ¬ x.1 < b.1 := not_lt_of_le (le_trans hb_le hyx)
          simp [this]
      | false =>
        cases hf : (y :: ys).find? validGradeRow with
        | none => simp
        | some b =>
          have hb_mem : b ∈ y :: ys := List.mem_of_find?_eq_some hf
          have hb_le : b.1 ≤ y.1 := by
            rcases List.mem_cons.mp hb_mem with h1 | h1
            · rw [h1]
            · have := hy b h1
              unfold dateDescLe at this
              simpa using this
          have hnlt : ¬ x.1 < b.1 := not_lt_of_le (le_trans hb_le hyx)
          simp [hnlt, hPx]
    · rw [if_neg hle]
      have hxy : x.1 < y.1 := by
        unfold dateDescLe at hle
        simpa using hle
      rw [List.find?_cons, List.find?_cons]
      cases hPy : validGradeRow y with
      | true =>
        simp only
        have : x.1 < y.1 := hxy
        simp [this]
      | false =>
        simp only
        exact ih hys

theorem find_sortStable_eq_pickBest (l : List (Nat × Record)) :
    (sortStable dateDescLe l).find? validGradeRow = pickBest l := by
  induction l with
  | nil => rfl
  | cons x xs ih =>
    have hstep : sortStable dateDescLe (x :: xs)
        = insertStable dateDescLe x (sortStable dateDescLe xs) := rfl
    rw [hstep, find_insertStable x _
      (sortStable_pairwise dateDescLe dateDescLe_total dateDescLe_trans xs), ih,
      pickBest_cons]
    cases hB : pickBest xs with
    | none =>
      cases hx : validGradeRow x <;> simp [hx]
    | some b =>
      cases hx : validGradeRow x with
      | true => simp
      | false =>
        simp only [Bool.false_eq_true, if_false]
        split <;> rfl

theorem pickBest_eq_none_iff (l : List (Nat × Record)) :
    pickBest l = none ↔ ∀ x ∈ l, validGradeRow x = false := by
  induction l with
  | nil => simp [pickBest]
  | cons x xs ih =>
    rw [pickBest_cons]
    by_cases hx : validGradeRow x = true
    · rw [if_pos hx]
      constructor
      · intro h
        cases hB : pickBest xs with
        | none =>
          rw [hB] at h
          replace h : some x = none := h
          simp at h
        | some b =>
          rw [hB] at h
          replace h : (if x.1 < b.1 then some b else some x) = none := h
          revert h
          split <;> simp
      · intro h
        exact absurd hx (by simp [h x (List.mem_cons_self x xs)])
    · rw [if_neg hx]
      have hx' : validGradeRow x = false := by
        revert hx
        cases validGradeRow x <;> simp
      rw [ih]
      constructor
      · intro h y hy
        rcases List.mem_cons.mp hy with h1 | h1
        · rw [h1]; exact hx'
        · exact h y h1
      · intro h y hy
        exact h y (List.mem_cons_of_mem x hy)

theorem pickBest_some (l : List (Nat × Record)) (dr : Nat × Record)
    (h : pickBest l = some dr) :
    dr ∈ l ∧ validGradeRow dr = true ∧
      ∀ x ∈ l, validGradeRow x = true → x.1 ≤ dr.1 := by
  induction l generalizing dr with
  | nil => simp [pickBest] at h
  | cons x xs ih =>
    rw [pickBest_cons] at h
    by_cases hx : validGradeRow x = true
    · rw [if_pos hx] at h
      cases hB : pickBest xs with
      | none =>
        rw [hB] at h
        replace h : some x = some dr := h
        injection h with h
        subst h
        refine ⟨List.mem_cons_self _ _, hx, ?_⟩
        intro y hy hvy
        rcases List.mem_cons.mp hy with h1 | h1
        · rw [h1]
        · exact absurd hvy (by simp [(pickBest_eq_none_iff xs).mp hB y h1])
      | some b =>
        rw [hB] at h
        replace h : (if x.1 < b.1 then some b else some x) = some dr := h
        by_cases hxb : x.1 < b.1
        · rw [if_pos hxb] at h
          injection h with h
          subst h
          rcases ih b hB with ⟨hbmem, hbval, hble⟩
          refine ⟨List.mem_cons_of_mem x hbmem, hbval, ?_⟩
          intro y hy hvy
          rcases List.mem_cons.mp hy with h1 | h1
          · rw [h1]; exact le_of_lt hxb
          · exact hble y h1 hvy
        · rw [if_neg hxb] at h
          injection h with h
          subst h
          rcases ih b hB with ⟨hbmem, hbval, hble⟩
          refine ⟨List.mem_cons_self _ _, hx, ?_⟩
          intro y hy hvy
          rcases List.mem_cons.mp hy with h1 | h1
          · rw [h1]
          · exact le_trans (hble y h1 hvy) (le_of_not_lt hxb)
    · rw [if_neg hx] at h
      rcases ih dr h with ⟨hbmem, hbval, hble⟩
      refine ⟨List.mem_cons_of_mem x hbmem, hbval, ?_⟩
      intro y hy hvy
      rcases List.mem_cons.mp hy with h1 | h1
      · rw [h1] at hvy; exact absurd hvy hx
      · exact hble y h1 hvy

theorem pickBest_first (l : List (Nat × Record)) (dr : Nat × Record)
    (h : pickBest l = some dr) :
    ∃ pre post, l = pre ++ dr :: post ∧
      ∀ x ∈ pre, validGradeRow x = true → x.1 < dr.1 := by
  induction l generalizing dr with
  | nil => simp [pickBest] at h
  | cons x xs ih =>
    rw [pickBest_cons] at h
    by_cases hx : validGradeRow x = true
    · rw [if_pos hx] at h
      cases hB : pickBest xs with
      | none =>
        rw [hB] at h
        replace h : some x = some dr := h
        injection h with h
        subst h
        exact ⟨[], xs, rfl, by simp⟩
      | some b =>
        rw [hB] at h
        replace h : (if x.1 < b.1 then some b else some x) = some dr := h
        by_cases hxb : x.1 < b.1
        · rw [if_pos hxb] at h
          injection h with h
          subst h
          rcases ih b hB with ⟨pre, post, hshape, hlt⟩
          refine ⟨x :: pre, post, by rw [hshape, List.cons_append], ?_⟩
          intro y hy hvy
          rcases List.mem_cons.mp hy with h1 | h1
          · rw [h1]; exact hxb
          · exact hlt y h1 hvy
        · rw [if_neg hxb] at h
          injection h with h
          subst h
          exact ⟨[], xs, rfl, by simp⟩
    · rw [if_neg hx] at h
      rcases ih dr h with ⟨pre, post, hshape, hlt⟩
      refine ⟨x :: pre, post, by rw [hshape, List.cons_append], ?_⟩
      intro y hy hvy
      rcases List.mem_cons.mp hy with h1 | h1
      · rw [h1] at hvy; exact absurd hvy hx
      · exact hlt y h1 hvy

theorem gradeNormalized_ne_NA (g : String) (h : is_valid_grade g = true) :
    gradeNormalized g ≠ "N/A" := by
  unfold is_valid_grade at h
  unfold gradeNormalized
  cases hp : pyInt g with
  | none => rw [hp] at h; simp at h
  | some n =>
    rw [hp] at h
    have hn : 7 ≤ n ∧ n ≤ 12 := by
      have h2 := h
      simp only [Bool.and_eq_true, decide_eq_true_eq] at h2
      exact h2
    rcases hn with ⟨hn1, hn2⟩
    show toString n ≠ "N/A"
    interval_cases n <;> decide

/-! ## build_summary assembly -/

theorem build_summary_eq (records : List Record) :
    build_summary records =
      match loop1 records [] none "N/A" with
      | .error e => .error e
      | .ok (dated, _, prStr) =>
        match (sortStable dateDescLe dated).find? validGradeRow with
        | none => .ok (prStr, "N/A", "N/A")
        | some dr =>
          match srLoop records (gradeNormalized (safeNA dr.2 "Grade")) none "N/A" with
          | .error e => .error e
          | .ok (_, srStr) =>
            .ok (prStr, srStr, gradeNormalized (safeNA dr.2 "Grade")) := by
  unfold build_summary
  cases hl : loop1 records [] none "N/A" with
  | error e => rfl
  | ok out =>
    rcases out with ⟨dated, pS0, ps0⟩
    simp only
    cases hf : (sortStable dateDescLe dated).find? validGradeRow with
    | none => simp
    | some dr =>
      have hval : validGradeRow dr = true := List.find?_some hf
      have hne : gradeNormalized (safeNA dr.2 "Grade") ≠ "N/A" :=
        gradeNormalized_ne_NA _ (by simpa [validGradeRow] using hval)
      simp only [if_neg hne]

theorem build_summary_parts (records : List Record) (pr sr g : String)
    (h : build_summary records = .ok (pr, sr, g)) :
    g = gradeSpec records ∧
    pr = (prFold (none, "N/A") records).2 ∧
    ((g = "N/A" ∧ sr = "N/A") ∨
      (g ≠ "N/A" ∧ sr = (prFold (none, "N/A") (records.filter (gradeMatches g))).2)) := by
  rw [build_summary_eq] at h
  split at h
  · exact absurd h (by simp)
  · rename_i dated pS0 ps0 heq
    rcases loop1_spec records [] none "N/A" dated pS0 ps0 heq with ⟨hdated, hfold⟩
    rw [List.nil_append] at hdated
    have hpr_eq : ps0 = (prFold (none, "N/A") records).2 := by
      rw [← hfold]
    have hfind : (sortStable dateDescLe dated).find? validGradeRow
        = pickBest (datedOf records) := by
      rw [hdated]
      exact find_sortStable_eq_pickBest _
    split at h
    · rename_i heqf
      rw [hfind] at heqf
      have hgs : gradeSpec records = "N/A" := by
        unfold gradeSpec
        rw [heqf]
      injection h with h1
      injection h1 with ha hrest
      injection hrest with hb hc
      subst ha; subst hb; subst hc
      exact ⟨hgs.symm, hpr_eq, Or.inl ⟨rfl, rfl⟩⟩
    · rename_i dr heqf
      rw [hfind] at heqf
      have hgs : gradeSpec records = gradeNormalized (safeNA dr.2 "Grade") := by
        unfold gradeSpec
        rw [heqf]
      have hval : validGradeRow dr = true := (pickBest_some _ _ heqf).2.1
      have hne : gradeNormalized (safeNA dr.2 "Grade") ≠ "N/A" :=
        gradeNormalized_ne_NA _ (by simpa [validGradeRow] using hval)
      split at h
      · exact absurd h (by simp)
      · rename_i sS srStr heqs
        injection h with h1
        injection h1 with ha hrest
        injection hrest with hb hc
        subst ha; subst hb; subst hc
        have hsp := srLoop_spec records _ none "N/A" sS srStr heqs
        refine ⟨hgs.symm, hpr_eq, Or.inr ⟨hne, ?_⟩⟩
        rw [← hsp]

theorem build_summary_total (records : List Record)
    (hok : ∀ r ∈ records, timeOk r = true) :
    ∃ pr sr g, build_summary records = .ok (pr, sr, g) := by
  rw [build_summary_eq]
  rcases loop1_ok records [] none "N/A" hok with ⟨out, hout⟩
  rcases out with ⟨dated, pS0, ps0⟩
  rw [hout]
  simp only
  cases hf : (sortStable dateDescLe dated).find? validGradeRow with
  | none => exact ⟨ps0, "N/A", "N/A", rfl⟩
  | some dr =>
    rcases srLoop_ok records (gradeNormalized (safeNA dr.2 "Grade")) none "N/A" hok
      with ⟨out2, hout2⟩
    rcases out2 with ⟨sS, srStr⟩
    simp only
    rw [hout2]
    exact ⟨ps0, srStr, _, rfl⟩

/-! ## Claims C3, C4, C10 -/

/-- Claim C3: `build_summary` returns as personal record a time string
parsing to the minimum parsed time over ALL records (the sentinel when
none parses), and as season record a time string parsing to the minimum
parsed time over the records whose validated grade equals the current
grade (the sentinel when the current grade is unknown or no such record
has a parseable time); on the spec's example it yields current grade 11
and both records 17:30. -/
theorem claim_C3 :
    (∀ records pr sr g, build_summary records = .ok (pr, sr, g) →
      ((pr = "N/A" ↔ allTimes records = []) ∧
       (pr ≠ "N/A" → ∃ m, time_to_seconds pr = .ok (some m) ∧
          m ∈ allTimes records ∧ ∀ q ∈ allTimes records, m ≤ q) ∧
       (sr = "N/A" ↔ (g = "N/A" ∨ seasonTimes records g = [])) ∧
       (sr ≠ "N/A" → ∃ m, time_to_seconds sr = .ok (some m) ∧
          m ∈ seasonTimes records g ∧ ∀ q ∈ seasonTimes records g, m ≤ q))) ∧
    build_summary c3Records = .ok ("17:30", "17:30", "11") := by
  constructor
  · intro records pr sr g h
    rcases build_summary_parts records pr sr g h with ⟨hg, hpr, hsr⟩
    have hprspec := prFold_spec records
    rw [← hpr] at hprspec
    refine ⟨⟨fun hna => hprspec.1.mp hna, fun hnil => hprspec.1.mpr hnil⟩,
      hprspec.2, ?_, ?_⟩
    · constructor
      · intro hna
        rcases hsr with ⟨hgna, _⟩ | ⟨hgne, hsrv⟩
        · exact Or.inl hgna
        · right
          have hspec := prFold_spec (records.filter (gradeMatches g))
          rw [← hsrv] at hspec
          exact hspec.1.mp hna
      · intro hcase
        rcases hsr with ⟨_, hsrna⟩ | ⟨hgne, hsrv⟩
        · exact hsrna
        · rcases hcase with hgna | hnil
          · exact absurd hgna hgne
          · have hspec := prFold_spec (records.filter (gradeMatches g))
            rw [← hsrv] at hspec
            exact hspec.1.mpr hnil
    · intro hne
      rcases hsr with ⟨_, hsrna⟩ | ⟨hgne, hsrv⟩
      · exact absurd hsrna hne
      · have hspec := prFold_spec (records.filter (gradeMatches g))
        rw [← hsrv] at hspec
        exact hspec.2 hne
  · decide

theorem claim_C3_witness :
    build_summary c3Records = .ok ("17:30", "17:30", "11") ∧
    (("17:30" : String) = "N/A" ↔ allTimes c3Records = []) := by
  constructor
  · exact claim_C3.2
  · exact ((claim_C3.1 c3Records "17:30" "17:30" "11" claim_C3.2).1)

/-- Claim C4 (amended): the current grade is the grade of the record with
the latest parseable date among those passing the grade validator, the
earliest such record winning date ties (the stable descending sort); the
sentinel is the string N/A — not the word unknown — and `build_summary`
completes without raising provided every time field passes
`time_to_seconds` (a colon-containing malformed time raises instead). -/
theorem claim_C4_amended :
    (∀ records, (∀ r ∈ records, timeOk r = true) →
      (∃ pr sr, build_summary records = .ok (pr, sr, gradeSpec records)) ∧
      (gradeSpec records = "N/A" ↔
        ∀ r ∈ records, parse_date (safeNA r "Date") = none ∨
          is_valid_grade (safeNA r "Grade") = false) ∧
      (∀ dr, pickBest (datedOf records) = some dr →
        gradeSpec records = gradeNormalized (safeNA dr.2 "Grade") ∧
        validGradeRow dr = true ∧ dr ∈ datedOf records ∧
        (∀ x ∈ datedOf records, validGradeRow x = true → x.1 ≤ dr.1) ∧
        (∃ pre post, datedOf records = pre ++ dr :: post ∧
          ∀ x ∈ pre, validGradeRow x = true → x.1 < dr.1))) ∧
    build_summary c4Records = .ok ("N/A", "N/A", "N/A") ∧
    gradeSpec c4Records = "N/A" := by
  refine ⟨?_, by decide, by decide⟩
  intro records hok
  have hiff : gradeSpec records = "N/A" ↔
      ∀ r ∈ records, parse_date (safeNA r "Date") = none ∨
        is_valid_grade (safeNA r "Grade") = false := by
    constructor
    · intro hna r hr
      cases hpb : pickBest (datedOf records) with
      | some dr =>
        have hval : validGradeRow dr = true := (pickBest_some _ _ hpb).2.1
        have : gradeSpec records = gradeNormalized (safeNA dr.2 "Grade") := by
          unfold gradeSpec
          rw [hpb]
        rw [this] at hna
        exact absurd hna (gradeNormalized_ne_NA _ (by simpa [validGradeRow] using hval))
      | none =>
        have hall := (pickBest_eq_none_iff _).mp hpb
        cases hpd : parse_date (safeNA r "Date") with
        | none => exact Or.inl rfl
        | some d =>
          right
          have hmem : (d, r) ∈ datedOf records := by
            unfold datedOf
            exact List.mem_filterMap.mpr ⟨r, hr, by rw [hpd]; rfl⟩
          have := hall (d, r) hmem
          simpa [validGradeRow] using this
    · intro hall
      cases hpb : pickBest (datedOf records) with
      | none =>
        unfold gradeSpec
        rw [hpb]
      | some dr =>
        have hval : validGradeRow dr = true := (pickBest_some _ _ hpb).2.1
        have hmem : dr ∈ datedOf records := (pickBest_some _ _ hpb).1
        rcases List.mem_filterMap.mp hmem with ⟨r, hr, hmap⟩
        cases hpd : parse_date (safeNA r "Date") with
        | none => rw [hpd] at hmap; simp at hmap
        | some d =>
          rw [hpd] at hmap
          replace hmap : some (d, r) = some dr := hmap
          injection hmap with hmap
          rcases hall r hr with h1 | h1
          · rw [hpd] at h1; injection h1
          · rw [← hmap] at hval
            simp only [validGradeRow] at hval
            rw [h1] at hval
            simp at hval
  refine ⟨?_, hiff, ?_⟩
  · rcases build_summary_total records hok with ⟨pr, sr, g, hbs⟩
    rcases build_summary_parts records pr sr g hbs with ⟨hg, _, _⟩
    exact ⟨pr, sr, by rw [← hg]; exact hbs⟩
  · intro dr hpb
    rcases pickBest_some _ _ hpb with ⟨hmem, hval, hmax⟩
    refine ⟨by unfold gradeSpec; rw [hpb], hval, hmem, hmax, pickBest_first _ _ hpb⟩

theorem claim_C4_witness :
    (∀ r ∈ c4Records, timeOk r = true) ∧
    (∃ pr sr, build_summary c4Records = .ok (pr, sr, gradeSpec c4Records)) := by
  refine ⟨by decide, ?_⟩
  exact ((claim_C4_amended.1 c4Records (by decide)).1)

/-- Claim C4, as stated, is false on two points: the sentinel reported
for the current grade is the string N/A, not the word unknown; and in
the all-unparseable case a time field with a colon but a malformed body
raises an exception instead of being recovered. -/
theorem claim_C4_counterexample :
    build_summary ([] : List Record) = .ok ("N/A", "N/A", "N/A") ∧
    ("N/A" : String) ≠ "unknown" ∧
    build_summary c4BadRecords = .error () := by
  refine ⟨by decide, by decide, by decide⟩

/-- Claim C10: whenever both the personal and the season record are
defined, the season record time is at least the personal record time,
because the season minimum ranges over a subset of the records. -/
theorem claim_C10 (records : List Record) (pr sr g : String)
    (h : build_summary records = .ok (pr, sr, g))
    (hpr : pr ≠ "N/A") (hsr : sr ≠ "N/A") :
    ∃ p q, time_to_seconds pr = .ok (some p) ∧
      time_to_seconds sr = .ok (some q) ∧ p ≤ q := by
  rcases build_summary_parts records pr sr g h with ⟨hg, hprv, hsrcase⟩
  have hprspec := prFold_spec records
  rw [← hprv] at hprspec
  rcases hprspec.2 hpr with ⟨p, hp_parse, hp_mem, hp_min⟩
  rcases hsrcase with ⟨_, hsrna⟩ | ⟨hgne, hsrv⟩
  · exact absurd hsrna hsr
  · have hspec := prFold_spec (records.filter (gradeMatches g))
    rw [← hsrv] at hspec
    rcases hspec.2 hsr with ⟨q, hq_parse, hq_mem, _⟩
    refine ⟨p, q, hp_parse, hq_parse, ?_⟩
    apply hp_min
    unfold allTimes at hq_mem ⊢
    exact ((List.filter_sublist records).filterMap timeOf).subset hq_mem

theorem claim_C10_witness :
    build_summary c10Records = .ok ("17:01.2", "17:30", "11") ∧
    (∃ p q, time_to_seconds "17:01.2" = .ok (some p) ∧
      time_to_seconds "17:30" = .ok (some q) ∧ p ≤ q) := by
  refine ⟨by decide, ?_⟩
  exact claim_C10 c10Records "17:01.2" "17:30" "11" (by decide) (by decide) (by decide)

/-! ## Claim C9: shared-meets table -/

theorem strLe_total (a b : String) : strLe a b = true ∨ strLe b a = true := by
  unfold strLe
  rcases le_total a b with h | h
  · left; simpa using h
  · right; simpa using h

theorem strLe_trans (a b c : String)
    (h1 : strLe a b = true) (h2 : strLe b c = true) : strLe a c = true := by
  unfold strLe at h1 h2 ⊢
  simp only [decide_eq_true_eq] at h1 h2 ⊢
  exact le_trans h1 h2

theorem mem_sharedMeetNames (a b : Stats) (m : String) :
    m ∈ sharedMeetNames a b ↔
      (m ∈ a.meets.map (·.1) ∧ m ∈ b.meets.map (·.1)) := by
  unfold sharedMeetNames
  rw [(sortStable_perm strLe _).mem_iff, List.mem_dedup, List.mem_filter]
  constructor
  · rintro ⟨h1, h2⟩
    refine ⟨h1, ?_⟩
    rcases List.any_eq_true.mp h2 with ⟨q, hq, hqm⟩
    exact List.mem_map.mpr ⟨q, hq, of_decide_eq_true hqm⟩
  · rintro ⟨h1, h2⟩
    refine ⟨h1, ?_⟩
    rcases List.mem_map.mp h2 with ⟨q, hq, hqm⟩
    exact List.any_eq_true.mpr ⟨q, hq, decide_eq_true hqm⟩

theorem dictGet_isSome_of_mem_keys {β : Type} (l : List (String × β)) (m : String)
    (h : m ∈ l.map (·.1)) : (dictGet l m).isSome = true := by
  cases hd : dictGet l m with
  | some v => rfl
  | none => exact absurd ((dictGet_eq_none_iff l m).mp hd) (by simp [h])

/-- Claim C9: the shared-meets table has exactly one row per meet name in
the intersection of the two athletes' meet maps, sorted ascending by
name, each row carrying both athletes' stored placements; on the example
sharing only County Championships with places 2 and 5 it is exactly that
one row. -/
theorem claim_C9 :
    (∀ a b : Stats,
      (sharedMeetNames a b).Nodup ∧
      List.Pairwise (fun m1 m2 : String => m1 ≤ m2) (sharedMeetNames a b) ∧
      (∀ m pa pb, (m, pa, pb) ∈ sharedRows a b ↔
        (m ∈ a.meets.map (·.1) ∧ m ∈ b.meets.map (·.1) ∧
          pa = dictGet a.meets m ∧ pb = dictGet b.meets m)) ∧
      (∀ m pa pb, (m, pa, pb) ∈ sharedRows a b →
        pa.isSome = true ∧ pb.isSome = true)) ∧
    sharedRows c9StatsA c9StatsB = [("County Championships", some 2, some 5)] := by
  constructor
  · intro a b
    have hnodup : (sharedMeetNames a b).Nodup := by
      unfold sharedMeetNames
      exact ((sortStable_perm strLe _).nodup_iff).mpr (List.nodup_dedup _)
    have hpairwise : List.Pairwise (fun m1 m2 : String => m1 ≤ m2)
        (sharedMeetNames a b) := by
      have := sortStable_pairwise strLe strLe_total strLe_trans
        (((a.meets.map (·.1)).filter
          (fun m => b.meets.any (fun p => p.1 = m))).dedup)
      refine List.Pairwise.imp ?_ this
      intro m1 m2 h
      unfold strLe at h
      exact of_decide_eq_true h
    have hmemrow : ∀ m pa pb, (m, pa, pb) ∈ sharedRows a b ↔
        (m ∈ a.meets.map (·.1) ∧ m ∈ b.meets.map (·.1) ∧
          pa = dictGet a.meets m ∧ pb = dictGet b.meets m) := by
      intro m pa pb
      unfold sharedRows
      rw [List.mem_map]
      constructor
      · rintro ⟨m', hm', heq⟩
        injection heq with h1 h2
        injection h2 with h2 h3
        rw [h1] at hm' h2 h3
        rcases (mem_sharedMeetNames a b m).mp hm' with ⟨ha, hb⟩
        exact ⟨ha, hb, h2.symm, h3.symm⟩
      · rintro ⟨ha, hb, hpa, hpb⟩
        exact ⟨m, (mem_sharedMeetNames a b m).mpr ⟨ha, hb⟩,
          by rw [hpa, hpb]⟩
    refine ⟨hnodup, hpairwise, hmemrow, ?_⟩
    intro m pa pb hrow
    rcases (hmemrow m pa pb).mp hrow with ⟨ha, hb, hpa, hpb⟩
    rw [hpa, hpb]
    exact ⟨dictGet_isSome_of_mem_keys _ _ ha, dictGet_isSome_of_mem_keys _ _ hb⟩
  · decide

/-! ## Team-events lemmas (claim C8) -/

theorem isDigit_toNat_le (c : Char) (h : c.isDigit = true) :
    c.toNat ≤ 57 ∧ 48 ≤ c.toNat := by
  simp [Char.isDigit, UInt32.le_def, Fin.le_def] at h
  exact ⟨h.2, h.1⟩

theorem digitsToNat_aux_lt (cs : List Char) (h : cs.all Char.isDigit = true) :
    ∀ a : Nat, cs.foldl (fun a c => a * 10 + (c.toNat - 48)) a <
      (a + 1) * 10 ^ cs.length := by
  induction cs with
  | nil => intro a; simp
  | cons c cs' ih =>
    intro a
    simp only [List.all_cons, Bool.and_eq_true] at h
    have hc : c.toNat ≤ 57 := (isDigit_toNat_le c h.1).1
    have h1 : cs'.foldl (fun a c => a * 10 + (c.toNat - 48))
        (a * 10 + (c.toNat - 48)) <
        (a * 10 + (c.toNat - 48) + 1) * 10 ^ cs'.length := ih h.2 _
    have h2 : (a * 10 + (c.toNat - 48) + 1) * 10 ^ cs'.length ≤
        ((a + 1) * 10) * 10 ^ cs'.length := by
      apply Nat.mul_le_mul_right
      omega
    calc (c :: cs').foldl (fun a c => a * 10 + (c.toNat - 48)) a
        = cs'.foldl (fun a c => a * 10 + (c.toNat - 48))
            (a * 10 + (c.toNat - 48)) := rfl
      _ < (a * 10 + (c.toNat - 48) + 1) * 10 ^ cs'.length := h1
      _ ≤ ((a + 1) * 10) * 10 ^ cs'.length := h2
      _ = (a + 1) * 10 ^ (c :: cs').length := by
          rw [List.length_cons, pow_succ]
          ring

theorem digitsToNat_lt (cs : List Char) (h : cs.all Char.isDigit = true) :
    digitsToNat cs < 10 ^ cs.length := by
  have := digitsToNat_aux_lt cs h 0
  simpa [digitsToNat] using this

theorem parseNatDigits_lt (s : String) (k n : Nat)
    (h : parseNatDigits s k = some n) : n < 10 ^ k := by
  unfold parseNatDigits at h
  split at h
  · rename_i hc
    injection h with h
    subst h
    calc digitsToNat s.data < 10 ^ s.data.length := digitsToNat_lt _ hc.2.2
      _ ≤ 10 ^ k := Nat.pow_le_pow_right (by norm_num) hc.2.1
  · cases h

theorem monthNum_le (s : String) (m : Nat) (h : monthNum s = some m) :
    1 ≤ m ∧ m ≤ 12 := by
  unfold monthNum at h
  split at h <;> first
    | (injection h with h; omega)
    | cases h

theorem daysInMonth_le (y m : Nat) : daysInMonth y m ≤ 31 := by
  unfold daysInMonth
  split
  · split <;> omega
  · split <;> omega

theorem parse_date_le (s : String) (d : Nat) (h : parse_date s = some d) :
    d ≤ 99991231 := by
  unfold parse_date at h
  split at h
  · split at h
    · rename_i x0 mo da yr heq0 o1 o2 o3 m day y hmo hda hyr
      split at h
      · rename_i hcond
        injection h with h
        subst h
        have hy : y < 10000 := by
          have := parseNatDigits_lt yr 4 y hyr
          norm_num at this
          exact this
        have hm12 : m ≤ 12 := (monthNum_le mo m hmo).2
        have hday : day ≤ 31 := le_trans hcond.2.2 (daysInMonth_le y m)
        omega
      · cases h
    · cases h
  · cases h

theorem dateOf_le (r : Record) (d : Nat) (h : dateOf r = some d) :
    d ≤ 99991231 :=
  parse_date_le (safeNA r "Date") d h

theorem eventLe_total (x y : String × Event) :
    eventLe x y = true ∨ eventLe y x = true := by
  unfold eventLe
  rcases Nat.le_total (eventKey x) (eventKey y) with h | h
  · exact Or.inl (decide_eq_true h)
  · exact Or.inr (decide_eq_true h)

theorem eventLe_trans (x y z : String × Event) (h1 : eventLe x y = true)
    (h2 : eventLe y z = true) : eventLe x z = true := by
  unfold eventLe at h1 h2 ⊢
  exact decide_eq_true (le_trans (of_decide_eq_true h1) (of_decide_eq_true h2))

theorem minFold_append_one {α : Type} [LinearOrder α] (l : List α) (x : α) :
    minFold (l ++ [x]) = minStep (minFold l) x := by
  show (l ++ [x]).foldl minStep none = minStep (l.foldl minStep none) x
  rw [List.foldl_append]
  rfl

theorem urlScan_append (us : List String) (u : String) :
    ∀ s, urlScan s (us ++ [u]) =
      if urlScan s us = "" ∧ u ≠ "N/A" then u else urlScan s us := by
  induction us with
  | nil => intro s; rfl
  | cons v vs ih =>
    intro s
    show urlScan (if s = "" ∧ v ≠ "N/A" then v else s) (vs ++ [u]) =
      if urlScan (if s = "" ∧ v ≠ "N/A" then v else s) vs = "" ∧ u ≠ "N/A" then u
      else urlScan (if s = "" ∧ v ≠ "N/A" then v else s) vs
    exact ih _

theorem specUrl_append (cs : List Record) (r : Record) (h : cs ≠ []) :
    specUrl (cs ++ [r]) =
      if specUrl cs = "" ∧ urlOf r ≠ "N/A" then urlOf r else specUrl cs := by
  cases cs with
  | nil => exact absurd rfl h
  | cons c cs' =>
    show urlScan (urlOf c) (List.map urlOf (cs' ++ [r])) =
      if urlScan (urlOf c) (List.map urlOf cs') = "" ∧ urlOf r ≠ "N/A" then urlOf r
      else urlScan (urlOf c) (List.map urlOf cs')
    rw [List.map_append]
    exact urlScan_append (cs'.map urlOf) (urlOf r) (urlOf c)

theorem filterMap_one {α β : Type} (f : α → Option β) (a : α) :
    List.filterMap f [a] = match f a with | none => [] | some b => [b] := by
  cases hf : f a <;> simp [List.filterMap_cons, hf]

theorem eventsStep_na (E : List (String × Event)) (r : Record)
    (h : safeNA r "Meet Name" = "N/A") : eventsStep E r = E := by
  simp [eventsStep, h]

theorem eventsStep_new (E : List (String × Event)) (r : Record)
    (h1 : ¬ safeNA r "Meet Name" = "N/A")
    (h2 : dictGet E (safeNA r "Meet Name") = none) :
    eventsStep E r =
      E ++ [(safeNA r "Meet Name", ⟨dateOf r, placeOf r, urlOf r⟩)] := by
  simp [eventsStep, h1, h2]

theorem eventsStep_merge (E : List (String × Event)) (r : Record) (e : Event)
    (h1 : ¬ safeNA r "Meet Name" = "N/A")
    (h2 : dictGet E (safeNA r "Meet Name") = some e) :
    eventsStep E r = dictSet E (safeNA r "Meet Name")
      ⟨match dateOf r with | none => e.date | some nd => minStep e.date nd,
       match placeOf r with
       | none => e.best_place | some np => minStep e.best_place np,
       if e.url = "" ∧ urlOf r ≠ "N/A" then urlOf r else e.url⟩ := by
  obtain ⟨ed, ep, eu⟩ := e
  simp only [eventsStep, h2]
  rw [if_neg h1]
  cases dateOf r <;> cases placeOf r <;> cases ed <;> cases ep <;> rfl

theorem team_events_append (rs : List Record) (r : Record) :
    team_events (rs ++ [r]) = eventsStep (team_events rs) r := by
  unfold team_events
  rw [List.foldl_append]
  rfl

theorem eventContribs_append_ne (rs : List Record) (r : Record) (m : String)
    (h : ¬ safeNA r "Meet Name" = m) :
    eventContribs (rs ++ [r]) m = eventContribs rs m := by
  unfold eventContribs
  rw [List.filter_append]
  simp [h]

theorem eventContribs_append_pos (rs : List Record) (r : Record) (m : String)
    (h : safeNA r "Meet Name" = m) :
    eventContribs (rs ++ [r]) m = eventContribs rs m ++ [r] := by
  unfold eventContribs
  rw [List.filter_append]
  simp [h]

theorem specEvent_na (rows : List Record) : specEvent rows "N/A" = none := by
  unfold specEvent
  rw [if_pos rfl]

theorem specEvent_of_no_contribs (rows : List Record) (m : String)
    (hcs : eventContribs rows m = []) : specEvent rows m = none := by
  unfold specEvent
  rw [hcs]
  by_cases hm : m = "N/A"
  · rw [if_pos hm]
  · rw [if_neg hm]

theorem specEvent_of_contribs (rows : List Record) (m : String) (c : Record)
    (cs : List Record) (hm : ¬ m = "N/A")
    (hcs : eventContribs rows m = c :: cs) :
    specEvent rows m = some ⟨minFold ((c :: cs).filterMap dateOf),
      minFold ((c :: cs).filterMap placeOf), specUrl (c :: cs)⟩ := by
  unfold specEvent
  rw [if_neg hm, hcs]

theorem specEvent_append_ne (rs : List Record) (r : Record) (m : String)
    (h : ¬ safeNA r "Meet Name" = m) :
    specEvent (rs ++ [r]) m = specEvent rs m := by
  unfold specEvent
  rw [eventContribs_append_ne rs r m h]

theorem team_events_lookup (rs : List Record) (m : String) :
    dictGet (team_events rs) m = specEvent rs m := by
  induction rs using List.reverseRecOn with
  | nil =>
    rw [show team_events [] = [] from rfl,
      specEvent_of_no_contribs [] m rfl]
    rfl
  | append_singleton rs r ih =>
    rw [team_events_append]
    by_cases hna : safeNA r "Meet Name" = "N/A"
    · rw [eventsStep_na _ _ hna]
      by_cases hm : m = "N/A"
      · subst hm
        rw [ih, specEvent_na, specEvent_na]
      · rw [specEvent_append_ne rs r m (by rw [hna]; exact fun hh => hm hh.symm),
          ih]
    · by_cases hm : safeNA r "Meet Name" = m
      · -- the record contributes to `m`
        subst hm
        cases hE : dictGet (team_events rs) (safeNA r "Meet Name") with
        | none =>
          rw [eventsStep_new _ _ hna hE, dictGet_append_one, hE, if_pos rfl]
          have hspec : specEvent rs (safeNA r "Meet Name") = none := by
            rw [← ih, hE]
          have hcs : eventContribs rs (safeNA r "Meet Name") = [] := by
            cases hcs : eventContribs rs (safeNA r "Meet Name") with
            | nil => rfl
            | cons c cs' =>
              rw [specEvent_of_contribs rs _ c cs' hna hcs] at hspec
              cases hspec
          have happ : eventContribs (rs ++ [r]) (safeNA r "Meet Name") = [r] := by
            rw [eventContribs_append_pos rs r _ rfl, hcs]
            rfl
          rw [specEvent_of_contribs (rs ++ [r]) _ r [] hna happ,
            filterMap_one, filterMap_one]
          cases hd : dateOf r <;> cases hp : placeOf r <;> rfl
        | some e =>
          obtain ⟨ed, ep, eu⟩ := e
          rw [eventsStep_merge _ _ _ hna hE, dictGet_dictSet, if_pos rfl]
          have hspec : specEvent rs (safeNA r "Meet Name") =
              some ⟨ed, ep, eu⟩ := by
            rw [← ih, hE]
          cases hcs : eventContribs rs (safeNA r "Meet Name") with
          | nil =>
            rw [specEvent_of_no_contribs rs _ hcs] at hspec
            cases hspec
          | cons c cs' =>
            rw [specEvent_of_contribs rs _ c cs' hna hcs] at hspec
            injection hspec with hspec
            injection hspec with h1 h2 h3
            have happ : eventContribs (rs ++ [r]) (safeNA r "Meet Name") =
                c :: (cs' ++ [r]) := by
              rw [eventContribs_append_pos rs r _ rfl, hcs]
              rfl
            rw [specEvent_of_contribs (rs ++ [r]) _ c (cs' ++ [r]) hna happ]
            rw [show (c :: (cs' ++ [r])) = (c :: cs') ++ [r] from rfl,
              List.filterMap_append, List.filterMap_append,
              specUrl_append _ _ (List.cons_ne_nil c cs'), h3,
              filterMap_one, filterMap_one]
            cases hd : dateOf r <;> cases hp : placeOf r <;>
              simp [minFold_append_one, h1, h2]
      · -- the record contributes elsewhere: both sides unchanged at `m`
        rw [specEvent_append_ne rs r m hm, ← ih]
        cases hE : dictGet (team_events rs) (safeNA r "Meet Name") with
        | none =>
          rw [eventsStep_new _ _ hna hE, dictGet_append_one]
          cases hgm : dictGet (team_events rs) m with
          | some w => rfl
          | none => rw [if_neg (fun hh => hm hh.symm)]
        | some e =>
          rw [eventsStep_merge _ _ _ hna hE, dictGet_dictSet,
            if_neg (fun hh => hm hh.symm)]

theorem dictSet_keys_of_mem {β : Type} (m : List (String × β)) (k : String)
    (v : β) (hany : m.any (fun p => p.1 = k) = true) :
    (dictSet m k v).map (·.1) = m.map (·.1) := by
  unfold dictSet
  rw [if_pos hany, List.map_map]
  apply List.map_congr_left
  intro p hp
  by_cases hpk : p.1 = k <;> simp [hpk]

theorem team_events_keys_nodup (rs : List Record) :
    ((team_events rs).map (·.1)).Nodup := by
  induction rs using List.reverseRecOn with
  | nil => simp [team_events]
  | append_singleton rs r ih =>
    rw [team_events_append]
    by_cases hna : safeNA r "Meet Name" = "N/A"
    · rw [eventsStep_na _ _ hna]
      exact ih
    · cases hE : dictGet (team_events rs) (safeNA r "Meet Name") with
      | none =>
        rw [eventsStep_new _ _ hna hE, List.map_append]
        have hnm : safeNA r "Meet Name" ∉ (team_events rs).map (·.1) :=
          (dictGet_eq_none_iff _ _).mp hE
        refine List.Nodup.append ih (by simp) ?_
        intro a ha hb
        simp only [List.map_cons, List.map_nil, List.mem_singleton] at hb
        subst hb
        exact hnm ha
      | some e =>
        rw [eventsStep_merge _ _ _ hna hE]
        rw [dictSet_keys_of_mem]
        · exact ih
        · exact List.any_eq_true.mpr
            ⟨_, dictGet_some_mem _ _ _ hE, by simp⟩

/-- Claim C8 (amended): on an empty record sequence the event list and the
rendered rows are empty; otherwise the sorted event list carries exactly one
entry per distinct non-sentinel meet name occurring in the records, whose
date and best place are the minimum parseable date and the minimum numeric
overall place over the contributing records (absent exactly when no
contributing record supplies one), whose URL is the retained URL of the
events loop (the first contributing record's URL when non-blank, otherwise
the first later contributing URL that is non-blank and not the literal
sentinel string, blank if none) — not the claim's "first non-empty URL
encountered" — and the list is sorted ascending by date with undated events
at the end. -/
theorem claim_C8_amended :
    team_events_sorted ([] : List Record) = [] ∧
    build_team_events_rows [] = "" ∧
    ∀ rows : List Record,
      ((team_events_sorted rows).map (·.1)).Nodup ∧
      (∀ m : String, (∃ e, (m, e) ∈ team_events_sorted rows) ↔
        (m ≠ "N/A" ∧ ∃ r ∈ rows, safeNA r "Meet Name" = m)) ∧
      (∀ m e, (m, e) ∈ team_events_sorted rows →
        e.date = minFold ((eventContribs rows m).filterMap dateOf) ∧
        e.best_place = minFold ((eventContribs rows m).filterMap placeOf) ∧
        e.url = specUrl (eventContribs rows m) ∧
        (∀ d, e.date = some d →
          d ∈ (eventContribs rows m).filterMap dateOf ∧
          ∀ x ∈ (eventContribs rows m).filterMap dateOf, d ≤ x) ∧
        (∀ p, e.best_place = some p →
          p ∈ (eventContribs rows m).filterMap placeOf ∧
          ∀ x ∈ (eventContribs rows m).filterMap placeOf, p ≤ x) ∧
        (e.date = none ↔ (eventContribs rows m).filterMap dateOf = []) ∧
        (e.best_place = none ↔
          (eventContribs rows m).filterMap placeOf = [])) ∧
      List.Pairwise (fun x y => eventKey x ≤ eventKey y)
        (team_events_sorted rows) ∧
      List.Pairwise (fun x y : String × Event =>
        x.2.date = none → y.2.date = none) (team_events_sorted rows) := by
  refine ⟨rfl, rfl, ?_⟩
  intro rows
  have hperm : List.Perm (team_events_sorted rows) (team_events rows) :=
    sortStable_perm eventLe (team_events rows)
  have hnd : ((team_events rows).map (·.1)).Nodup := team_events_keys_nodup rows
  have hnds : ((team_events_sorted rows).map (·.1)).Nodup :=
    ((hperm.map (·.1)).nodup_iff).mpr hnd
  have hmem : ∀ m e, ((m, e) ∈ team_events_sorted rows ↔
      specEvent rows m = some e) := by
    intro m e
    rw [hperm.mem_iff]
    constructor
    · intro h
      rw [← team_events_lookup rows m]
      exact mem_nodup_dictGet _ _ _ hnd h
    · intro h
      exact dictGet_some_mem _ _ _ (by rw [team_events_lookup rows m]; exact h)
  have hexist : ∀ m : String, (∃ e, (m, e) ∈ team_events_sorted rows) ↔
      (m ≠ "N/A" ∧ ∃ r ∈ rows, safeNA r "Meet Name" = m) := by
    intro m
    constructor
    · rintro ⟨e, he⟩
      have hs := (hmem m e).mp he
      by_cases hm : m = "N/A"
      · rw [hm, specEvent_na] at hs
        cases hs
      · refine ⟨hm, ?_⟩
        cases hcs : eventContribs rows m with
        | nil =>
          rw [specEvent_of_no_contribs rows m hcs] at hs
          cases hs
        | cons c cs' =>
          have hc : c ∈ eventContribs rows m := by
            rw [hcs]
            exact List.mem_cons_self _ _
          unfold eventContribs at hc
          rcases List.mem_filter.mp hc with ⟨hcrows, hcpred⟩
          exact ⟨c, hcrows, of_decide_eq_true hcpred⟩
    · rintro ⟨hm, rr, hrr, hrm⟩
      cases hcs : eventContribs rows m with
      | nil =>
        exfalso
        have hin : rr ∈ eventContribs rows m := by
          unfold eventContribs
          exact List.mem_filter.mpr ⟨hrr, by simp [hrm]⟩
        rw [hcs] at hin
        cases hin
      | cons c cs' =>
        exact ⟨_, (hmem m _).mpr (specEvent_of_contribs rows m c cs' hm hcs)⟩
  have hvals : ∀ m e, (m, e) ∈ team_events_sorted rows →
      e.date = minFold ((eventContribs rows m).filterMap dateOf) ∧
      e.best_place = minFold ((eventContribs rows m).filterMap placeOf) ∧
      e.url = specUrl (eventContribs rows m) ∧
      (∀ d, e.date = some d →
        d ∈ (eventContribs rows m).filterMap dateOf ∧
        ∀ x ∈ (eventContribs rows m).filterMap dateOf, d ≤ x) ∧
      (∀ p, e.best_place = some p →
        p ∈ (eventContribs rows m).filterMap placeOf ∧
        ∀ x ∈ (eventContribs rows m).filterMap placeOf, p ≤ x) ∧
      (e.date = none ↔ (eventContribs rows m).filterMap dateOf = []) ∧
      (e.best_place = none ↔
        (eventContribs rows m).filterMap placeOf = []) := by
    intro m e he
    have hs := (hmem m e).mp he
    by_cases hm : m = "N/A"
    · rw [hm, specEvent_na] at hs
      cases hs
    cases hcs : eventContribs rows m with
    | nil =>
      rw [specEvent_of_no_contribs rows m hcs] at hs
      cases hs
    | cons c cs' =>
      rw [specEvent_of_contribs rows m c cs' hm hcs] at hs
      injection hs with hs
      have hdate : e.date = minFold ((c :: cs').filterMap dateOf) := by
        rw [← hs]
      have hplace : e.best_place = minFold ((c :: cs').filterMap placeOf) := by
        rw [← hs]
      have hurl : e.url = specUrl (c :: cs') := by
        rw [← hs]
      refine ⟨hdate, hplace, hurl, ?_, ?_, ?_, ?_⟩
      · intro d hd
        rw [hdate] at hd
        have hd2 : ((c :: cs').filterMap dateOf).foldl minStep none = some d := hd
        rcases minfold_some _ _ _ hd2 with ⟨hmm, hle, _⟩
        refine ⟨?_, hle⟩
        rcases hmm with h1 | h1
        · exact h1
        · cases h1
      · intro p hp
        rw [hplace] at hp
        have hp2 : ((c :: cs').filterMap placeOf).foldl minStep none = some p := hp
        rcases minfold_some _ _ _ hp2 with ⟨hmm, hle, _⟩
        refine ⟨?_, hle⟩
        rcases hmm with h1 | h1
        · exact h1
        · cases h1
      · rw [hdate]
        show ((c :: cs').filterMap dateOf).foldl minStep none = none ↔ _
        rw [minfold_none_iff]
        simp
      · rw [hplace]
        show ((c :: cs').filterMap placeOf).foldl minStep none = none ↔ _
        rw [minfold_none_iff]
        simp
  have hsorted : List.Pairwise (fun x y => eventKey x ≤ eventKey y)
      (team_events_sorted rows) := by
    have := sortStable_pairwise eventLe eventLe_total eventLe_trans
      (team_events rows)
    refine List.Pairwise.imp ?_ this
    intro x y h
    exact of_decide_eq_true h
  have hundated : List.Pairwise (fun x y : String × Event =>
      x.2.date = none → y.2.date = none) (team_events_sorted rows) := by
    have hbound : ∀ p ∈ team_events_sorted rows,
        ∀ dd, p.2.date = some dd → dd ≤ 99991231 := by
      intro p hp dd hdd
      have hv := hvals p.1 p.2 hp
      have hd := (hv.2.2.2.1 dd hdd).1
      rcases List.mem_filterMap.mp hd with ⟨a, _, ha⟩
      exact dateOf_le a dd ha
    refine List.Pairwise.imp_of_mem ?_ hsorted
    intro x y hx hy hkey hxnone
    cases hyd : y.2.date with
    | none => rfl
    | some dd =>
      exfalso
      have h1 : eventKey x = 99991232 := by
        unfold eventKey
        rw [hxnone]
      have h2 : eventKey y = dd := by
        unfold eventKey
        rw [hyd]
      have h3 : dd ≤ 99991231 := hbound y hy dd hyd
      omega
  exact ⟨hnds, hexist, hvals, hsorted, hundated⟩

/-- Claim C8, as stated, is false about the URL rule: for one meet whose
contributing records carry the blank URL, the literal string sentinel and a
real link in that order, the first non-empty URL encountered is the literal
sentinel, while the events loop keeps the real link (it skips the sentinel
when the stored URL is blank). -/
theorem claim_C8_counterexample :
    team_events_sorted c8Records = [("M", ⟨none, none, "http://x"⟩)] ∧
    claimFirstUrl c8Records "M" = some "N/A" ∧
    ("http://x" : String) ≠ "N/A" := by
  decide

/-- A concrete run of the amended claim: three dated/undated meets come out
deduplicated, date-sorted and with the undated meet at the end. -/
theorem claim_C8_witness :
    ((team_events_sorted c8MixRecords).map (·.1)).Nodup ∧
    List.Pairwise (fun x y => eventKey x ≤ eventKey y)
      (team_events_sorted c8MixRecords) ∧
    team_events_sorted c8MixRecords =
      [("Early", ⟨some 20240831, some 3, ""⟩),
       ("Late", ⟨some 20240907, some 7, ""⟩),
       ("NoDate", ⟨none, none, ""⟩)] :=
  ⟨(claim_C8_amended.2.2 c8MixRecords).1,
   (claim_C8_amended.2.2 c8MixRecords).2.2.2.1,
   by decide⟩
